import Mathlib

/-! # SimSSL handshake core (package `simssl`)

A shallow embedding of `simssl.go`: the packet structure, the four packet
builders `GenerateClientHello`, `GenerateServerHello`, `GenerateClientFailed`
and `GenerateServerErase`, the Internet checksum `CheckSum`, the handshake
validator `CheckKey`, and the AES-CBC helpers `AesEncrypt`, `AesDecrypt`,
`PKCS5Padding` and `PKCS5UnPadding`.

* Go `byte` is `Fin 256`; Go `int` is `Int`; the `uint16` and `uint32`
  arithmetic of `CheckSum` is on `Nat` with explicit `% 2 ^ 16` and `% 2 ^ 32`,
  the `int64` sum of `GenerateClientHello` is wrapped by `wrapInt64`.
* A call returns `Except Fault`: `.error (.KeySizeError n)` is the error value
  of `aes.NewCipher`, `.error .Panic` a run-time panic.
* A byte slice is the list of its elements; where the capacity matters (the
  result of `AesDecrypt`, re-sliced by its callers) it is a `Slice`.
* The standard-library primitives the package calls are embedded after their
  published algorithms: AES (FIPS-197, key sizes 128, 192 and 256), CBC
  chaining, SHA-256 (FIPS 180-4), MD5 (RFC 1321) and base-36 formatting.
* The global `math/rand` source and the clock are the explicit `World`, with
  one clock reading for each call of `time.Now().Unix()` in a builder; the
  output sequence of the generator is a parameter of `rand.Uint64`.
-/

namespace simssl

/-- A Go `byte` / `uint8`. -/
abbrev Byte := Fin 256

/-- How a Go call can end other than by returning its normal result. -/
inductive Fault where
  /-- The `aes.KeySizeError` value returned by `aes.NewCipher` as `err`. -/
  | KeySizeError (size : Nat)
  /-- A run-time panic (index or slice bound out of range, division by zero,
  or a panic raised by a library routine). -/
  | Panic
  deriving DecidableEq, Repr

deriving instance DecidableEq for Except

/-- Go index expression `s[i]` on a byte slice with an `int` index. -/
def index (s : List Byte) (i : Int) : Except Fault Byte :=
  if 0 ≤ i ∧ i < (s.length : Int) then .ok (s.getD i.toNat 0) else .error .Panic

/-- Bytewise exclusive or of two byte strings (`subtle.XORBytes`). -/
def xorBytes (a b : List Byte) : List Byte := List.zipWith (· ^^^ ·) a b

/-! ## `crypto/aes`: the AES block cipher (FIPS-197) -/

namespace aes

/-- The AES S-box. -/
def sboxTable : List Byte :=
  [0x63, 0x7c, 0x77, 0x7b, 0xf2, 0x6b, 0x6f, 0xc5, 0x30, 0x01, 0x67, 0x2b, 0xfe, 0xd7, 0xab, 0x76,
   0xca, 0x82, 0xc9, 0x7d, 0xfa, 0x59, 0x47, 0xf0, 0xad, 0xd4, 0xa2, 0xaf, 0x9c, 0xa4, 0x72, 0xc0,
   0xb7, 0xfd, 0x93, 0x26, 0x36, 0x3f, 0xf7, 0xcc, 0x34, 0xa5, 0xe5, 0xf1, 0x71, 0xd8, 0x31, 0x15,
   0x04, 0xc7, 0x23, 0xc3, 0x18, 0x96, 0x05, 0x9a, 0x07, 0x12, 0x80, 0xe2, 0xeb, 0x27, 0xb2, 0x75,
   0x09, 0x83, 0x2c, 0x1a, 0x1b, 0x6e, 0x5a, 0xa0, 0x52, 0x3b, 0xd6, 0xb3, 0x29, 0xe3, 0x2f, 0x84,
   0x53, 0xd1, 0x00, 0xed, 0x20, 0xfc, 0xb1, 0x5b, 0x6a, 0xcb, 0xbe, 0x39, 0x4a, 0x4c, 0x58, 0xcf,
   0xd0, 0xef, 0xaa, 0xfb, 0x43, 0x4d, 0x33, 0x85, 0x45, 0xf9, 0x02, 0x7f, 0x50, 0x3c, 0x9f, 0xa8,
   0x51, 0xa3, 0x40, 0x8f, 0x92, 0x9d, 0x38, 0xf5, 0xbc, 0xb6, 0xda, 0x21, 0x10, 0xff, 0xf3, 0xd2,
   0xcd, 0x0c, 0x13, 0xec, 0x5f, 0x97, 0x44, 0x17, 0xc4, 0xa7, 0x7e, 0x3d, 0x64, 0x5d, 0x19, 0x73,
   0x60, 0x81, 0x4f, 0xdc, 0x22, 0x2a, 0x90, 0x88, 0x46, 0xee, 0xb8, 0x14, 0xde, 0x5e, 0x0b, 0xdb,
   0xe0, 0x32, 0x3a, 0x0a, 0x49, 0x06, 0x24, 0x5c, 0xc2, 0xd3, 0xac, 0x62, 0x91, 0x95, 0xe4, 0x79,
   0xe7, 0xc8, 0x37, 0x6d, 0x8d, 0xd5, 0x4e, 0xa9, 0x6c, 0x56, 0xf4, 0xea, 0x65, 0x7a, 0xae, 0x08,
   0xba, 0x78, 0x25, 0x2e, 0x1c, 0xa6, 0xb4, 0xc6, 0xe8, 0xdd, 0x74, 0x1f, 0x4b, 0xbd, 0x8b, 0x8a,
   0x70, 0x3e, 0xb5, 0x66, 0x48, 0x03, 0xf6, 0x0e, 0x61, 0x35, 0x57, 0xb9, 0x86, 0xc1, 0x1d, 0x9e,
   0xe1, 0xf8, 0x98, 0x11, 0x69, 0xd9, 0x8e, 0x94, 0x9b, 0x1e, 0x87, 0xe9, 0xce, 0x55, 0x28, 0xdf,
   0x8c, 0xa1, 0x89, 0x0d, 0xbf, 0xe6, 0x42, 0x68, 0x41, 0x99, 0x2d, 0x0f, 0xb0, 0x54, 0xbb, 0x16]
/-- The inverse AES S-box. -/
def invSboxTable : List Byte :=
  [0x52, 0x09, 0x6a, 0xd5, 0x30, 0x36, 0xa5, 0x38, 0xbf, 0x40, 0xa3, 0x9e, 0x81, 0xf3, 0xd7, 0xfb,
   0x7c, 0xe3, 0x39, 0x82, 0x9b, 0x2f, 0xff, 0x87, 0x34, 0x8e, 0x43, 0x44, 0xc4, 0xde, 0xe9, 0xcb,
   0x54, 0x7b, 0x94, 0x32, 0xa6, 0xc2, 0x23, 0x3d, 0xee, 0x4c, 0x95, 0x0b, 0x42, 0xfa, 0xc3, 0x4e,
   0x08, 0x2e, 0xa1, 0x66, 0x28, 0xd9, 0x24, 0xb2, 0x76, 0x5b, 0xa2, 0x49, 0x6d, 0x8b, 0xd1, 0x25,
   0x72, 0xf8, 0xf6, 0x64, 0x86, 0x68, 0x98, 0x16, 0xd4, 0xa4, 0x5c, 0xcc, 0x5d, 0x65, 0xb6, 0x92,
   0x6c, 0x70, 0x48, 0x50, 0xfd, 0xed, 0xb9, 0xda, 0x5e, 0x15, 0x46, 0x57, 0xa7, 0x8d, 0x9d, 0x84,
   0x90, 0xd8, 0xab, 0x00, 0x8c, 0xbc, 0xd3, 0x0a, 0xf7, 0xe4, 0x58, 0x05, 0xb8, 0xb3, 0x45, 0x06,
   0xd0, 0x2c, 0x1e, 0x8f, 0xca, 0x3f, 0x0f, 0x02, 0xc1, 0xaf, 0xbd, 0x03, 0x01, 0x13, 0x8a, 0x6b,
   0x3a, 0x91, 0x11, 0x41, 0x4f, 0x67, 0xdc, 0xea, 0x97, 0xf2, 0xcf, 0xce, 0xf0, 0xb4, 0xe6, 0x73,
   0x96, 0xac, 0x74, 0x22, 0xe7, 0xad, 0x35, 0x85, 0xe2, 0xf9, 0x37, 0xe8, 0x1c, 0x75, 0xdf, 0x6e,
   0x47, 0xf1, 0x1a, 0x71, 0x1d, 0x29, 0xc5, 0x89, 0x6f, 0xb7, 0x62, 0x0e, 0xaa, 0x18, 0xbe, 0x1b,
   0xfc, 0x56, 0x3e, 0x4b, 0xc6, 0xd2, 0x79, 0x20, 0x9a, 0xdb, 0xc0, 0xfe, 0x78, 0xcd, 0x5a, 0xf4,
   0x1f, 0xdd, 0xa8, 0x33, 0x88, 0x07, 0xc7, 0x31, 0xb1, 0x12, 0x10, 0x59, 0x27, 0x80, 0xec, 0x5f,
   0x60, 0x51, 0x7f, 0xa9, 0x19, 0xb5, 0x4a, 0x0d, 0x2d, 0xe5, 0x7a, 0x9f, 0x93, 0xc9, 0x9c, 0xef,
   0xa0, 0xe0, 0x3b, 0x4d, 0xae, 0x2a, 0xf5, 0xb0, 0xc8, 0xeb, 0xbb, 0x3c, 0x83, 0x53, 0x99, 0x61,
   0x17, 0x2b, 0x04, 0x7e, 0xba, 0x77, 0xd6, 0x26, 0xe1, 0x69, 0x14, 0x63, 0x55, 0x21, 0x0c, 0x7d]
/-- S-box substitution of one byte. -/
def subByte (b : Byte) : Byte := sboxTable.getD b.val 0

/-- Inverse S-box substitution of one byte. -/
def invSubByte (b : Byte) : Byte := invSboxTable.getD b.val 0

/-- Multiplication by `x` in GF(2^8) modulo `x^8 + x^4 + x^3 + x + 1`. -/
def xtime (b : Byte) : Byte :=
  Fin.ofNat ((b.val * 2) ^^^ (if 128 ≤ b.val then 0x11b else 0))

/-- A column of the AES state, or a word of the key schedule. -/
structure Word where
  b0 : Byte
  b1 : Byte
  b2 : Byte
  b3 : Byte
  deriving DecidableEq, Repr

/-- The AES state: four columns of four bytes. -/
structure State where
  c0 : Word
  c1 : Word
  c2 : Word
  c3 : Word
  deriving DecidableEq, Repr

/-- Apply a byte function to the four bytes of a word. -/
def Word.map (f : Byte → Byte) (w : Word) : Word := ⟨f w.b0, f w.b1, f w.b2, f w.b3⟩

/-- Bytewise exclusive or of two words. -/
def Word.xor (a b : Word) : Word := ⟨a.b0 ^^^ b.b0, a.b1 ^^^ b.b1, a.b2 ^^^ b.b2, a.b3 ^^^ b.b3⟩

/-- Read a word from the first four bytes of a list (missing bytes read as 0). -/
def Word.ofList (l : List Byte) : Word := ⟨l.getD 0 0, l.getD 1 0, l.getD 2 0, l.getD 3 0⟩

/-- The four bytes of a word. -/
def Word.toList (w : Word) : List Byte := [w.b0, w.b1, w.b2, w.b3]

/-- Read a state from the first sixteen bytes of a list, column by column. -/
def State.ofList (l : List Byte) : State :=
  ⟨Word.ofList l, Word.ofList (l.drop 4), Word.ofList (l.drop 8), Word.ofList (l.drop 12)⟩

/-- The sixteen bytes of a state, column by column. -/
def State.toList (s : State) : List Byte :=
  s.c0.toList ++ s.c1.toList ++ s.c2.toList ++ s.c3.toList

/-- The `AddRoundKey` transformation. -/
def addRoundKey (k s : State) : State := ⟨s.c0.xor k.c0, s.c1.xor k.c1, s.c2.xor k.c2, s.c3.xor k.c3⟩

/-- The `SubBytes` transformation. -/
def subBytes (s : State) : State :=
  ⟨s.c0.map subByte, s.c1.map subByte, s.c2.map subByte, s.c3.map subByte⟩

/-- The `InvSubBytes` transformation. -/
def invSubBytes (s : State) : State :=
  ⟨s.c0.map invSubByte, s.c1.map invSubByte, s.c2.map invSubByte, s.c3.map invSubByte⟩

/-- The `ShiftRows` transformation: row `r` of the state is rotated left by `r` columns. -/
def shiftRows (s : State) : State :=
  ⟨⟨s.c0.b0, s.c1.b1, s.c2.b2, s.c3.b3⟩,
   ⟨s.c1.b0, s.c2.b1, s.c3.b2, s.c0.b3⟩,
   ⟨s.c2.b0, s.c3.b1, s.c0.b2, s.c1.b3⟩,
   ⟨s.c3.b0, s.c0.b1, s.c1.b2, s.c2.b3⟩⟩

/-- The `InvShiftRows` transformation: row `r` of the state is rotated right by `r` columns. -/
def invShiftRows (s : State) : State :=
  ⟨⟨s.c0.b0, s.c3.b1, s.c2.b2, s.c1.b3⟩,
   ⟨s.c1.b0, s.c0.b1, s.c3.b2, s.c2.b3⟩,
   ⟨s.c2.b0, s.c1.b1, s.c0.b2, s.c3.b3⟩,
   ⟨s.c3.b0, s.c2.b1, s.c1.b2, s.c0.b3⟩⟩

/-- Multiplication by `{03}` in GF(2^8). -/
def mul3 (b : Byte) : Byte := xtime b ^^^ b

/-- Multiplication by `{09}` in GF(2^8). -/
def mul9 (b : Byte) : Byte := xtime (xtime (xtime b)) ^^^ b

/-- Multiplication by `{0b}` in GF(2^8). -/
def mul11 (b : Byte) : Byte := xtime (xtime (xtime b)) ^^^ xtime b ^^^ b

/-- Multiplication by `{0d}` in GF(2^8). -/
def mul13 (b : Byte) : Byte := xtime (xtime (xtime b)) ^^^ xtime (xtime b) ^^^ b

/-- Multiplication by `{0e}` in GF(2^8). -/
def mul14 (b : Byte) : Byte := xtime (xtime (xtime b)) ^^^ xtime (xtime b) ^^^ xtime b

/-- The `MixColumns` transformation on one column. -/
def mixColumn (w : Word) : Word :=
  ⟨xtime w.b0 ^^^ mul3 w.b1 ^^^ w.b2 ^^^ w.b3,
   w.b0 ^^^ xtime w.b1 ^^^ mul3 w.b2 ^^^ w.b3,
   w.b0 ^^^ w.b1 ^^^ xtime w.b2 ^^^ mul3 w.b3,
   mul3 w.b0 ^^^ w.b1 ^^^ w.b2 ^^^ xtime w.b3⟩

/-- The `InvMixColumns` transformation on one column. -/
def invMixColumn (w : Word) : Word :=
  ⟨mul14 w.b0 ^^^ mul11 w.b1 ^^^ mul13 w.b2 ^^^ mul9 w.b3,
   mul9 w.b0 ^^^ mul14 w.b1 ^^^ mul11 w.b2 ^^^ mul13 w.b3,
   mul13 w.b0 ^^^ mul9 w.b1 ^^^ mul14 w.b2 ^^^ mul11 w.b3,
   mul11 w.b0 ^^^ mul13 w.b1 ^^^ mul9 w.b2 ^^^ mul14 w.b3⟩

/-- The `MixColumns` transformation. -/
def mixColumns (s : State) : State :=
  ⟨mixColumn s.c0, mixColumn s.c1, mixColumn s.c2, mixColumn s.c3⟩

/-- The `InvMixColumns` transformation. -/
def invMixColumns (s : State) : State :=
  ⟨invMixColumn s.c0, invMixColumn s.c1, invMixColumn s.c2, invMixColumn s.c3⟩

/-- The `RotWord` function of the key schedule. -/
def rotWord (w : Word) : Word := ⟨w.b1, w.b2, w.b3, w.b0⟩

/-- The round constant `Rcon[j]`, `j ≥ 1`: the word `[x^(j-1), 0, 0, 0]`. -/
def rcon (j : Nat) : Word := ⟨xtime^[j - 1] 1, 0, 0, 0⟩

/-- Split a key into its 32-bit words. -/
def wordsOf : Nat → List Byte → List Word
  | 0, _ => []
  | n + 1, l => Word.ofList l :: wordsOf n (l.drop 4)

/-- Word `w[i]` of the key schedule for a key of `nk` words, computed from the
words before it, given most recent first. -/
def expandStep (nk i : Nat) (prior : List Word) : Word :=
  let prev := prior.getD 0 ⟨0, 0, 0, 0⟩
  let back := prior.getD (nk - 1) ⟨0, 0, 0, 0⟩
  let temp :=
    if i % nk = 0 then ((rotWord prev).map subByte).xor (rcon (i / nk))
    else if 6 < nk ∧ i % nk = 4 then prev.map subByte
    else prev
  back.xor temp

/-- Extend the key schedule by `n` words, starting at word index `i`. -/
def expandLoop (nk : Nat) : Nat → Nat → List Word → List Word
  | 0, _, prior => prior
  | n + 1, i, prior => expandLoop nk n (i + 1) (expandStep nk i prior :: prior)

/-- The `KeyExpansion` routine: the `4 * (Nr + 1)` words of the key schedule, `Nr = Nk + 6`. -/
def keyExpansion (key : List Byte) : List Word :=
  let nk := key.length / 4
  (expandLoop nk (4 * (nk + 7) - nk) nk (wordsOf nk key).reverse).reverse

/-- Group the key schedule into round keys of four words. -/
def roundKeysOf : Nat → List Word → List State
  | 0, _ => []
  | n + 1, ws =>
    ⟨ws.getD 0 ⟨0, 0, 0, 0⟩, ws.getD 1 ⟨0, 0, 0, 0⟩, ws.getD 2 ⟨0, 0, 0, 0⟩, ws.getD 3 ⟨0, 0, 0, 0⟩⟩
      :: roundKeysOf n (ws.drop 4)

/-- The `Nr + 1` round keys of a key. -/
def roundKeys (key : List Byte) : List State :=
  roundKeysOf (key.length / 4 + 7) (keyExpansion key)

/-- The rounds of the cipher after the initial `AddRoundKey`; the last round
key is used without `MixColumns`. -/
def encRounds : List State → State → State
  | [], s => s
  | [k], s => addRoundKey k (shiftRows (subBytes s))
  | k :: k2 :: ks, s =>
    encRounds (k2 :: ks) (addRoundKey k (mixColumns (shiftRows (subBytes s))))

/-- The rounds of the inverse cipher that undo `encRounds`. -/
def decRounds : List State → State → State
  | [], s => s
  | [k], s => invSubBytes (invShiftRows (addRoundKey k s))
  | k :: k2 :: ks, s =>
    invSubBytes (invShiftRows (invMixColumns (addRoundKey k (decRounds (k2 :: ks) s))))

/-- The `Cipher` routine of FIPS-197 on a state. -/
def cipher (rks : List State) (s : State) : State :=
  match rks with
  | [] => s
  | k0 :: ks => encRounds ks (addRoundKey k0 s)

/-- The `InvCipher` routine of FIPS-197 on a state. -/
def invCipher (rks : List State) (s : State) : State :=
  match rks with
  | [] => s
  | k0 :: ks => addRoundKey k0 (decRounds ks s)

end aes

/-- The `cipher.Block` returned by `aes.NewCipher`: the expanded key. -/
structure Block where
  roundKeys : List aes.State
  deriving DecidableEq, Repr

/-- Go `aes.NewCipher`: a key of 16, 24 or 32 bytes selects AES-128, AES-192 or
AES-256; any other length returns a `KeySizeError`. -/
def aes.NewCipher (key : List Byte) : Except Fault Block :=
  if key.length = 16 ∨ key.length = 24 ∨ key.length = 32 then .ok ⟨aes.roundKeys key⟩
  else .error (.KeySizeError key.length)

/-- Go `Block.BlockSize`: the AES block size in bytes. -/
def Block.BlockSize (_ : Block) : Int := 16

/-- Go `Block.Encrypt` on one block (`CryptBlocks` only passes whole blocks). -/
def Block.Encrypt (b : Block) (src : List Byte) : List Byte :=
  (aes.cipher b.roundKeys (aes.State.ofList src)).toList

/-- Go `Block.Decrypt` on one block (`CryptBlocks` only passes whole blocks). -/
def Block.Decrypt (b : Block) (src : List Byte) : List Byte :=
  (aes.invCipher b.roundKeys (aes.State.ofList src)).toList

/-! ## `crypto/cipher`: CBC mode -/

/-- Go slice expression `s[:hi]` on a byte slice, for `hi` within its length. -/
def sliceTo (s : List Byte) (hi : Int) : Except Fault (List Byte) :=
  if 0 ≤ hi ∧ hi ≤ (s.length : Int) then .ok (s.take hi.toNat) else .error .Panic

/-- The `cipher.BlockMode` made by `cipher.NewCBCEncrypter`. -/
structure cbcEncrypter where
  b : Block
  iv : List Byte

/-- The `cipher.BlockMode` made by `cipher.NewCBCDecrypter`. -/
structure cbcDecrypter where
  b : Block
  iv : List Byte

/-- Go `cipher.NewCBCEncrypter`; panics when the IV is not one block long. -/
def NewCBCEncrypter (b : Block) (iv : List Byte) : Except Fault cbcEncrypter :=
  if (iv.length : Int) ≠ b.BlockSize then .error .Panic else .ok ⟨b, iv⟩

/-- Go `cipher.NewCBCDecrypter`; panics when the IV is not one block long. -/
def NewCBCDecrypter (b : Block) (iv : List Byte) : Except Fault cbcDecrypter :=
  if (iv.length : Int) ≠ b.BlockSize then .error .Panic else .ok ⟨b, iv⟩

/-- CBC encryption of `n` blocks of `src`: each block is xored with the
previous ciphertext block (the IV for the first) and then encrypted. -/
def encryptBlocks (b : Block) : Nat → List Byte → List Byte → List Byte
  | 0, _, _ => []
  | n + 1, iv, src =>
    let c := b.Encrypt (xorBytes (src.take 16) iv)
    c ++ encryptBlocks b n c (src.drop 16)

/-- CBC decryption of `n` blocks of `src`: each block is decrypted and then
xored with the previous ciphertext block (the IV for the first). -/
def decryptBlocks (b : Block) : Nat → List Byte → List Byte → List Byte
  | 0, _, _ => []
  | n + 1, iv, src =>
    let c := src.take 16
    xorBytes (b.Decrypt c) iv ++ decryptBlocks b n c (src.drop 16)

/-- Go `CryptBlocks` of the CBC encrypter into a fresh destination
`make([]byte, len(src))`; panics when `src` is not a whole number of blocks. -/
def cbcEncrypter.CryptBlocks (x : cbcEncrypter) (src : List Byte) : Except Fault (List Byte) :=
  if src.length % 16 ≠ 0 then .error .Panic
  else .ok (encryptBlocks x.b (src.length / 16) x.iv src)

/-- Go `CryptBlocks` of the CBC decrypter into a fresh destination
`make([]byte, len(src))`; panics when `src` is not a whole number of blocks. -/
def cbcDecrypter.CryptBlocks (x : cbcDecrypter) (src : List Byte) : Except Fault (List Byte) :=
  if src.length % 16 ≠ 0 then .error .Panic
  else .ok (decryptBlocks x.b (src.length / 16) x.iv src)

/-! ## `crypto/sha256` -/

namespace sha256

/-- Trial-division primality test. -/
def isPrime (n : Nat) : Bool := 2 ≤ n && (List.range n).all fun d => d < 2 || n % d != 0

/-- The first 64 prime numbers. -/
def primes : List Nat := (List.range 312).filter isPrime

/-- Binary search for the integer `k`-th root of `n`, deciding the bits below
`2 ^ bits` from the top; `r` holds the bits decided so far. -/
def rootLoop (k n : Nat) : Nat → Nat → Nat
  | 0, r => r
  | bits + 1, r => rootLoop k n bits (if (r + 2 ^ bits) ^ k ≤ n then r + 2 ^ bits else r)

/-- The first 32 bits of the fractional part of the `k`-th root of `p`. -/
def fracRoot (k p : Nat) : Nat := rootLoop k (p * 2 ^ (32 * k)) 48 0 % 2 ^ 32

/-- The round constants of SHA-256: the first 32 bits of the fractional parts
of the cube roots of the first 64 primes. -/
def K : List Nat := primes.map (fracRoot 3)

/-- The initial hash value of SHA-256: the first 32 bits of the fractional
parts of the square roots of the first 8 primes. -/
def H0 : List Nat := (primes.take 8).map (fracRoot 2)

/-- Right rotation of a 32-bit word. -/
def rotr (x n : Nat) : Nat := ((x >>> n) ||| (x <<< (32 - n))) % 2 ^ 32

/-- The function `Σ0`. -/
def bigSigma0 (x : Nat) : Nat := rotr x 2 ^^^ rotr x 13 ^^^ rotr x 22

/-- The function `Σ1`. -/
def bigSigma1 (x : Nat) : Nat := rotr x 6 ^^^ rotr x 11 ^^^ rotr x 25

/-- The function `σ0`. -/
def smallSigma0 (x : Nat) : Nat := rotr x 7 ^^^ rotr x 18 ^^^ (x >>> 3)

/-- The function `σ1`. -/
def smallSigma1 (x : Nat) : Nat := rotr x 17 ^^^ rotr x 19 ^^^ (x >>> 10)

/-- The function `Ch`. -/
def ch (x y z : Nat) : Nat := (x &&& y) ^^^ ((x ^^^ 0xffffffff) &&& z)

/-- The function `Maj`. -/
def maj (x y z : Nat) : Nat := (x &&& y) ^^^ (x &&& z) ^^^ (y &&& z)

/-- The big-endian 32-bit word in the first four bytes of a list. -/
def beWord (l : List Byte) : Nat :=
  ((l.getD 0 0).val <<< 24) ||| ((l.getD 1 0).val <<< 16) ||| ((l.getD 2 0).val <<< 8) |||
    (l.getD 3 0).val

/-- The sixteen words of a 64-byte block. -/
def blockWords : Nat → List Byte → List Nat
  | 0, _ => []
  | n + 1, l => beWord l :: blockWords n (l.drop 4)

/-- Extend the message schedule (most recent word first) by `n` words. -/
def schedule : Nat → List Nat → List Nat
  | 0, w => w
  | n + 1, w =>
    schedule n
      ((smallSigma1 (w.getD 1 0) + w.getD 6 0 + smallSigma0 (w.getD 14 0) + w.getD 15 0) % 2 ^ 32
        :: w)

/-- The eight working variables. -/
structure Vars where
  a : Nat
  b : Nat
  c : Nat
  d : Nat
  e : Nat
  f : Nat
  g : Nat
  h : Nat
  deriving DecidableEq, Repr

/-- One round of the compression function with round constant and schedule word `kw`. -/
def round (v : Vars) (kw : Nat × Nat) : Vars :=
  let t1 := (v.h + bigSigma1 v.e + ch v.e v.f v.g + kw.1 + kw.2) % 2 ^ 32
  let t2 := (bigSigma0 v.a + maj v.a v.b v.c) % 2 ^ 32
  ⟨(t1 + t2) % 2 ^ 32, v.a, v.b, v.c, (v.d + t1) % 2 ^ 32, v.e, v.f, v.g⟩

/-- The compression function on one 64-byte block. -/
def compress (hs : Vars) (block : List Byte) : Vars :=
  let w := (schedule 48 (blockWords 16 block).reverse).reverse
  let v := (K.zip w).foldl round hs
  ⟨(hs.a + v.a) % 2 ^ 32, (hs.b + v.b) % 2 ^ 32, (hs.c + v.c) % 2 ^ 32, (hs.d + v.d) % 2 ^ 32,
   (hs.e + v.e) % 2 ^ 32, (hs.f + v.f) % 2 ^ 32, (hs.g + v.g) % 2 ^ 32, (hs.h + v.h) % 2 ^ 32⟩

/-- Compress `n` consecutive 64-byte blocks. -/
def blocks : Nat → Vars → List Byte → Vars
  | 0, hs, _ => hs
  | n + 1, hs, l => blocks n (compress hs (l.take 64)) (l.drop 64)

/-- The four bytes of a 32-bit word, big-endian. -/
def wordBytes (x : Nat) : List Byte :=
  [Fin.ofNat (x >>> 24), Fin.ofNat (x >>> 16), Fin.ofNat (x >>> 8), Fin.ofNat x]

/-- The padded message: a `0x80` byte, zero bytes up to 56 modulo 64, and the
bit length as a 64-bit big-endian integer. -/
def pad (msg : List Byte) : List Byte :=
  msg ++ [(0x80 : Byte)] ++ List.replicate ((119 - msg.length % 64) % 64) (0 : Byte) ++
    wordBytes ((8 * msg.length) >>> 32) ++ wordBytes (8 * msg.length)

/-- The digest as a byte list. -/
def digest (msg : List Byte) : List Byte :=
  let p := pad msg
  let v := blocks (p.length / 64)
    ⟨H0.getD 0 0, H0.getD 1 0, H0.getD 2 0, H0.getD 3 0, H0.getD 4 0, H0.getD 5 0, H0.getD 6 0,
     H0.getD 7 0⟩ p
  wordBytes v.a ++ wordBytes v.b ++ wordBytes v.c ++ wordBytes v.d ++ wordBytes v.e ++
    wordBytes v.f ++ wordBytes v.g ++ wordBytes v.h

end sha256

/-! ## Package `simssl` -/

/-- A Go byte array `[n]uint8`. -/
abbrev ByteArr (n : Nat) := { l : List Byte // l.length = n }

/-- The zero value of `[n]uint8`. -/
def ByteArr.zero (n : Nat) : ByteArr n := ⟨List.replicate n 0, List.length_replicate n 0⟩

/-- Go `copy(dst[:], src)` into an array: the first `min n (len src)` bytes
of `dst` are overwritten. -/
def ByteArr.copy {n : Nat} (dst : ByteArr n) (src : List Byte) : ByteArr n :=
  ⟨src.take n ++ dst.val.drop src.length, by
    have h := dst.property
    simp only [List.length_append, List.length_take, List.length_drop, h]
    omega⟩

/-- Go assignment `a[i] = v` to an element of an array. -/
def ByteArr.set {n : Nat} (a : ByteArr n) (i : Nat) (v : Byte) : ByteArr n :=
  ⟨a.val.set i v, by rw [List.length_set]; exact a.property⟩

/-- Go `sha256.Sum256`: the SHA-256 digest as a 32-byte array. -/
def sha256.Sum256 (data : List Byte) : ByteArr 32 := ⟨sha256.digest data, rfl⟩

/-- A Go byte slice whose capacity may exceed its length: the backing array
from the first element of the slice up to its capacity, and the length. -/
structure Slice where
  array : List Byte
  len : Nat
  deriving DecidableEq, Repr

/-- The elements of a slice. -/
def Slice.bytes (s : Slice) : List Byte := s.array.take s.len

/-- The capacity `cap(s)`. -/
def Slice.cap (s : Slice) : Nat := s.array.length

/-- A slice whose capacity is its length, as made by `make([]byte, n)`. -/
def Slice.ofBytes (l : List Byte) : Slice := ⟨l, l.length⟩

/-- Go slice expression `s[:hi]`: legal up to the capacity. -/
def Slice.sliceTo (s : Slice) (hi : Int) : Except Fault Slice :=
  if 0 ≤ hi ∧ hi ≤ (s.cap : Int) then .ok ⟨s.array, hi.toNat⟩ else .error .Panic

/-- Go index expression `s[i]`: legal below the length. -/
def Slice.index (s : Slice) (i : Int) : Except Fault Byte := simssl.index s.bytes i

/-- SimSsl packet design of Simple ssl. -/
structure SimSsl where
  ContentType : Byte
  Version : Byte
  Length : Fin 65536
  Method : Byte
  Mode : Byte
  CheckSum : Fin 65536
  ClientID : ByteArr 32
  ServerID : ByteArr 32
  ExpirationTime : Int
  RandomInit : ByteArr 32
  EncryptKey : ByteArr 16
  deriving DecidableEq

/-- State of the process-wide `math/rand` source, named by the seed it was
last seeded with and the number of values drawn since. -/
structure RandState where
  seed : Int
  drawn : Nat
  deriving DecidableEq, Repr

/-- The process state outside the package: the global random source and the
wall clock.  `now` is what `time.Now().Unix()` returns at the first reading a
builder takes, `later` what it returns at a second reading within the same
call (line 88 of `GenerateClientHello`); the two readings can differ. -/
structure World where
  rng : RandState
  now : Int
  later : Int
  deriving DecidableEq, Repr

/-- Go `rand.Seed`: reset the global source to the state determined by `seed`. -/
def rand.Seed (seed : Int) (w : World) : World := { w with rng := ⟨seed, 0⟩ }

/-- Go conversion `byte(x)` of an `int`. -/
def byteOfInt (x : Int) : Byte := Fin.ofNat (x % 256).toNat

/-- PKCS5Padding fill to the block. -/
def PKCS5Padding (ciphertext : List Byte) (blockSize : Int) : Except Fault (List Byte) :=
  if blockSize = 0 then .error .Panic
  else
    let padding : Int := blockSize - Int.tmod ciphertext.length blockSize
    if padding < 0 then .error .Panic
    else
      let padtext := List.replicate padding.toNat (byteOfInt padding)
      .ok (ciphertext ++ padtext)

/-- PKCS5UnPadding delete the paddings. -/
def PKCS5UnPadding (origData : Slice) : Except Fault Slice := do
  let length : Int := origData.len
  let b ← origData.index (length - 1)
  let unpadding : Int := b.val
  origData.sliceTo (length - unpadding)

/-- AesEncrypt AES decrypt with message and key. -/
def AesEncrypt (origData key : List Byte) : Except Fault (List Byte) := do
  let block ← aes.NewCipher key
  let blockSize := block.BlockSize
  let origData ← PKCS5Padding origData blockSize
  let iv ← sliceTo key blockSize
  let blockMode ← NewCBCEncrypter block iv
  let crypted ← blockMode.CryptBlocks origData
  return crypted

/-- The padding check loop of `AesDecrypt`,
`for i := start; i < paddingNum; i++`, with `n` iterations left; `true` when
the loop runs to its end, `false` when it leaves by its `return`. -/
def AesDecrypt.loop (origData : List Byte) (paddingNum : Int) : Nat → Int → Except Fault Bool
  | 0, _ => .ok true
  | n + 1, i => do
    let b ← index origData i
    if (b.val : Int) ≠ paddingNum then return false
    else AesDecrypt.loop origData paddingNum n (i + 1)

/-- AesDecrypt AES decrypt with crypted message and key. -/
def AesDecrypt (crypted key : List Byte) : Except Fault Slice := do
  let block ← aes.NewCipher key
  let blockSize := block.BlockSize
  let iv ← sliceTo key blockSize
  let blockMode ← NewCBCDecrypter block iv
  let origData ← blockMode.CryptBlocks crypted
  let last ← index origData ((origData.length : Int) - 1)
  let paddingNum : Int := last.val
  if paddingNum > block.BlockSize then return Slice.ofBytes origData
  let start : Int := (origData.length : Int) - paddingNum
  let done ← AesDecrypt.loop origData paddingNum (paddingNum - start).toNat start
  if !done then return Slice.ofBytes origData
  PKCS5UnPadding (Slice.ofBytes origData)

/-- GenerateServerHello Generate a server Hello Packet. -/
def GenerateServerHello (w : World) (cid : ByteArr 32) (sid : List Byte) (randomInit : ByteArr 32)
    (encryptKey : ByteArr 16) (timestamp : Int) : Except Fault SimSsl × World :=
  let w := rand.Seed w.now w
  let serverHello : SimSsl :=
    { ContentType := 0x02
      Version := 0x01
      Length := 112
      Method := 0x01
      Mode := 0x02
      CheckSum := 0x00
      ClientID := cid
      ServerID := sha256.Sum256 sid
      ExpirationTime := timestamp
      RandomInit := randomInit
      EncryptKey := ByteArr.zero 16 }
  (do
    let decryptMessage ← AesDecrypt serverHello.RandomInit.val encryptKey.val
    let first ← decryptMessage.sliceTo 32
    return { serverHello with RandomInit := serverHello.RandomInit.copy first.bytes }, w)

/-- The `for length > 1` loop of `CheckSum`: returns the remaining length,
the counter and the accumulator. -/
def CheckSum.loop (packetData : List Byte) : Nat → Int → Nat → Except Fault (Nat × Int × Nat)
  | length + 2, counter, acc => do
    let hi ← index packetData counter
    let src := (hi.val <<< 8) % 2 ^ 16
    let counter := counter + 1
    let lo ← index packetData counter
    let src := src ||| lo.val
    let counter := counter + 1
    let acc := (acc + src) % 2 ^ 32
    CheckSum.loop packetData length counter acc
  | length, counter, acc => .ok (length, counter, acc)

/-- CheckSum calculate the checksum of the whole packets, the checksum is originall 0. -/
def CheckSum (packetData : List Byte) (length : Nat) : Except Fault Nat := do
  let (length, counter, acc) ← CheckSum.loop packetData length 0 0
  let acc ←
    if length > 0 then do
      let hi ← index packetData counter
      let src := (hi.val <<< 8) % 2 ^ 16
      pure ((acc + src) % 2 ^ 32)
    else pure acc
  let acc := ((acc >>> 16) + (acc &&& 0x0000ffff)) % 2 ^ 32
  let acc := if acc &&& 0xffff0000 ≠ 0 then ((acc >>> 16) + (acc &&& 0x0000ffff)) % 2 ^ 32 else acc
  let src := acc % 2 ^ 16
  return src ^^^ 0xffff

/-- CheckKey check the key and expiration time id. -/
def CheckKey (A B : SimSsl) : Except Fault Bool := do
  if A.ClientID ≠ B.ClientID then return false
  if A.ExpirationTime ≠ B.ExpirationTime then return false
  match AesDecrypt A.RandomInit.val A.EncryptKey.val with
  | .error (.KeySizeError _) => return false
  | .error .Panic => .error .Panic
  | .ok temp =>
    let first ← temp.sliceTo 32
    let originInital := (ByteArr.zero 32).copy first.bytes
    if originInital ≠ B.RandomInit then return false
    return true

/-! ## The checksum as the specification words it -/

/-- The spec's words: the successive big-endian 16-bit words of a byte string;
a final odd byte is the high byte of a word whose low byte is zero. -/
def specWords : List Byte → List Nat
  | [] => []
  | [a] => [a.val * 256]
  | a :: b :: rest => (a.val * 256 + b.val) :: specWords rest

/-- The spec's words: ones'-complement addition of 16-bit words, the carry out
of bit 16 being added back into the low 16 bits. -/
def onesAdd (a b : Nat) : Nat := (a + b) % 65536 + (a + b) / 65536

/-- The spec's words: the ones'-complement sum of a list of 16-bit words. -/
def onesSum (ws : List Nat) : Nat := ws.foldl onesAdd 0

/-! ## Example packets -/

/-- The key `00 01 .. 0f`. -/
def exampleKey : ByteArr 16 :=
  ⟨[0x00, 0x01, 0x02, 0x03, 0x04, 0x05, 0x06, 0x07, 0x08, 0x09, 0x0a, 0x0b, 0x0c, 0x0d, 0x0e,
    0x0f], rfl⟩

/-- A nonce whose last byte is `01`: thirty-one bytes `aa`, then `01`. -/
def exampleNonce : ByteArr 32 :=
  ⟨[0xaa, 0xaa, 0xaa, 0xaa, 0xaa, 0xaa, 0xaa, 0xaa, 0xaa, 0xaa, 0xaa, 0xaa, 0xaa, 0xaa, 0xaa,
    0xaa, 0xaa, 0xaa, 0xaa, 0xaa, 0xaa, 0xaa, 0xaa, 0xaa, 0xaa, 0xaa, 0xaa, 0xaa, 0xaa, 0xaa,
    0xaa, 0x01], rfl⟩

/-- A ClientHello for the identity `dev-1` carrying `exampleKey`; its
`RandomInit` is the first 32 bytes of `AesEncrypt(exampleNonce, exampleKey)`. -/
def exampleClientHello : SimSsl :=
  { ContentType := 0x01
    Version := 0x01
    Length := 128
    Method := 0x01
    Mode := 0x02
    CheckSum := 0x00
    ClientID := sha256.Sum256 [0x64, 0x65, 0x76, 0x2d, 0x31]
    ServerID := sha256.Sum256 [0x75, 0x6e, 0x6b, 0x6e, 0x6f, 0x77, 0x6e]
    ExpirationTime := 86400
    RandomInit :=
      ⟨[0xcb, 0x1b, 0xd2, 0xf0, 0xf7, 0x77, 0x4c, 0xf3, 0x36, 0x6f, 0x52, 0x0c, 0xc9, 0xc2, 0x88,
        0xf8, 0x6b, 0x7c, 0x8e, 0x8f, 0xe5, 0x9f, 0x5f, 0xe2, 0x91, 0x85, 0xd3, 0x6c, 0x07, 0x61,
        0x6e, 0x09], rfl⟩
    EncryptKey := exampleKey }

/-- The ServerHello answering `exampleClientHello`: same `ClientID` and
`ExpirationTime`, and `exampleNonce` as `RandomInit`. -/
def exampleServerHello : SimSsl :=
  { ContentType := 0x02
    Version := 0x01
    Length := 112
    Method := 0x01
    Mode := 0x02
    CheckSum := 0x00
    ClientID := sha256.Sum256 [0x64, 0x65, 0x76, 0x2d, 0x31]
    ServerID := sha256.Sum256 [0x73, 0x72, 0x76]
    ExpirationTime := 86400
    RandomInit := exampleNonce
    EncryptKey := ByteArr.zero 16 }

end simssl

namespace simssl

/-! ## `crypto/md5` (RFC 1321) -/

namespace md5

/-- The sine table: `T[i] = floor(2^32 * |sin(i + 1)|)`. -/
def T : List Nat :=
  [0xd76aa478, 0xe8c7b756, 0x242070db, 0xc1bdceee, 0xf57c0faf, 0x4787c62a, 0xa8304613, 0xfd469501,
   0x698098d8, 0x8b44f7af, 0xffff5bb1, 0x895cd7be, 0x6b901122, 0xfd987193, 0xa679438e, 0x49b40821,
   0xf61e2562, 0xc040b340, 0x265e5a51, 0xe9b6c7aa, 0xd62f105d, 0x02441453, 0xd8a1e681, 0xe7d3fbc8,
   0x21e1cde6, 0xc33707d6, 0xf4d50d87, 0x455a14ed, 0xa9e3e905, 0xfcefa3f8, 0x676f02d9, 0x8d2a4c8a,
   0xfffa3942, 0x8771f681, 0x6d9d6122, 0xfde5380c, 0xa4beea44, 0x4bdecfa9, 0xf6bb4b60, 0xbebfbc70,
   0x289b7ec6, 0xeaa127fa, 0xd4ef3085, 0x04881d05, 0xd9d4d039, 0xe6db99e5, 0x1fa27cf8, 0xc4ac5665,
   0xf4292244, 0x432aff97, 0xab9423a7, 0xfc93a039, 0x655b59c3, 0x8f0ccc92, 0xffeff47d, 0x85845dd1,
   0x6fa87e4f, 0xfe2ce6e0, 0xa3014314, 0x4e0811a1, 0xf7537e82, 0xbd3af235, 0x2ad7d2bb, 0xeb86d391]

/-- The per-round left-rotation amounts. -/
def shifts : List Nat :=
  [7, 12, 17, 22, 7, 12, 17, 22, 7, 12, 17, 22, 7, 12, 17, 22,
   5, 9, 14, 20, 5, 9, 14, 20, 5, 9, 14, 20, 5, 9, 14, 20,
   4, 11, 16, 23, 4, 11, 16, 23, 4, 11, 16, 23, 4, 11, 16, 23,
   6, 10, 15, 21, 6, 10, 15, 21, 6, 10, 15, 21, 6, 10, 15, 21]

/-- Left rotation of a 32-bit word. -/
def rotl (x n : Nat) : Nat := ((x <<< n) ||| (x >>> (32 - n))) % 2 ^ 32

/-- The little-endian 32-bit word in the first four bytes of a list. -/
def leWord (l : List Byte) : Nat :=
  (l.getD 0 0).val ||| ((l.getD 1 0).val <<< 8) ||| ((l.getD 2 0).val <<< 16) |||
    ((l.getD 3 0).val <<< 24)

/-- The sixteen words of a 64-byte block. -/
def blockWords : Nat → List Byte → List Nat
  | 0, _ => []
  | n + 1, l => leWord l :: blockWords n (l.drop 4)

/-- The four chaining variables. -/
structure Vars where
  a : Nat
  b : Nat
  c : Nat
  d : Nat
  deriving DecidableEq, Repr

/-- Operation `i` (of 64) on the block words `m`. -/
def step (m : List Nat) (v : Vars) (i : Nat) : Vars :=
  let f :=
    if i < 16 then (v.b &&& v.c) ||| ((v.b ^^^ 0xffffffff) &&& v.d)
    else if i < 32 then (v.d &&& v.b) ||| ((v.d ^^^ 0xffffffff) &&& v.c)
    else if i < 48 then v.b ^^^ v.c ^^^ v.d
    else v.c ^^^ (v.b ||| (v.d ^^^ 0xffffffff))
  let g :=
    if i < 16 then i
    else if i < 32 then (5 * i + 1) % 16
    else if i < 48 then (3 * i + 5) % 16
    else (7 * i) % 16
  let f := (f + v.a + T.getD i 0 + m.getD g 0) % 2 ^ 32
  ⟨v.d, (v.b + rotl f (shifts.getD i 0)) % 2 ^ 32, v.b, v.c⟩

/-- The compression function on one 64-byte block. -/
def compress (hs : Vars) (block : List Byte) : Vars :=
  let v := (List.range 64).foldl (step (blockWords 16 block)) hs
  ⟨(hs.a + v.a) % 2 ^ 32, (hs.b + v.b) % 2 ^ 32, (hs.c + v.c) % 2 ^ 32, (hs.d + v.d) % 2 ^ 32⟩

/-- Compress `n` consecutive 64-byte blocks. -/
def blocks : Nat → Vars → List Byte → Vars
  | 0, hs, _ => hs
  | n + 1, hs, l => blocks n (compress hs (l.take 64)) (l.drop 64)

/-- The four bytes of a 32-bit word, little-endian. -/
def wordBytes (x : Nat) : List Byte :=
  [Fin.ofNat x, Fin.ofNat (x >>> 8), Fin.ofNat (x >>> 16), Fin.ofNat (x >>> 24)]

/-- The padded message: a `0x80` byte, zero bytes up to 56 modulo 64, and the
bit length as a 64-bit little-endian integer. -/
def pad (msg : List Byte) : List Byte :=
  msg ++ [(0x80 : Byte)] ++ List.replicate ((119 - msg.length % 64) % 64) (0 : Byte) ++
    wordBytes (8 * msg.length) ++ wordBytes ((8 * msg.length) >>> 32)

/-- The digest as a byte list. -/
def digest (msg : List Byte) : List Byte :=
  let p := pad msg
  let v := blocks (p.length / 64) ⟨0x67452301, 0xefcdab89, 0x98badcfe, 0x10325476⟩ p
  wordBytes v.a ++ wordBytes v.b ++ wordBytes v.c ++ wordBytes v.d

end md5

/-- Go `md5.Sum`: the MD5 digest as a 16-byte array. -/
def md5.Sum (data : List Byte) : ByteArr 16 := ⟨md5.digest data, rfl⟩

/-! ## `strconv` and `math/rand` -/

/-- The ASCII code of digit `d` in `0123456789abcdefghijklmnopqrstuvwxyz`. -/
def strconv.digit (d : Nat) : Byte := Fin.ofNat (if d < 10 then 48 + d else 87 + d)

/-- The digits of `n` in base `base`, most significant first, in front of
`acc`; at most `fuel` digits. -/
def strconv.digits (base : Nat) : Nat → Nat → List Byte → List Byte
  | 0, _, acc => acc
  | fuel + 1, n, acc =>
    if n / base = 0 then strconv.digit (n % base) :: acc
    else strconv.digits base fuel (n / base) (strconv.digit (n % base) :: acc)

/-- Go `[]byte(strconv.FormatUint(i, base))` for a `uint64` and `2 <= base <= 36`:
the bytes of the base-`base` representation of `i`. -/
def strconv.FormatUint (i : Nat) (base : Nat) : List Byte := strconv.digits base 64 i []

/-- Go `rand.Uint64` on the global source: the next value of the sequence and
the advanced state.  The generator behind it (an additive lagged Fibonacci
source filled from a 607-word table of the standard library) is the parameter
`source`: `source seed k` is value number `k` drawn after `rand.Seed(seed)`. -/
def rand.Uint64 (source : Int → Nat → Nat) (w : World) : Nat × World :=
  (source w.rng.seed w.rng.drawn % 2 ^ 64, { w with rng := ⟨w.rng.seed, w.rng.drawn + 1⟩ })

/-- Go `int64` arithmetic: the two's-complement value of an integer result. -/
def wrapInt64 (x : Int) : Int := (x + 2 ^ 63) % 2 ^ 64 - 2 ^ 63

/-! ## The packet builders -/

/-- GenerateClientHello Generate a client Hello Packet.  The call of
`time.Now().Unix()` that seeds the generator reads `w.now`, the one that sets
`ExpirationTime` reads `w.later`. -/
def GenerateClientHello (source : Int → Nat → Nat) (w : World) (cid : List Byte) :
    Except Fault SimSsl × World :=
  let w := rand.Seed w.now w
  let expirationTime := wrapInt64 (w.later + 60 * 60 * 24)
  let (r1, w) := rand.Uint64 source w
  let (r2, w) := rand.Uint64 source w
  let clientHello : SimSsl :=
    { ContentType := 0x01
      Version := 0x01
      Length := 128
      Method := 0x01
      Mode := 0x02
      CheckSum := 0x00
      ClientID := sha256.Sum256 cid
      ServerID := sha256.Sum256 [0x75, 0x6e, 0x6b, 0x6e, 0x6f, 0x77, 0x6e]
      ExpirationTime := expirationTime
      RandomInit := sha256.Sum256 (strconv.FormatUint r1 36)
      EncryptKey := md5.Sum (strconv.FormatUint r2 36) }
  (do
    let encryptMessage ← AesEncrypt clientHello.RandomInit.val clientHello.EncryptKey.val
    let first ← sliceTo encryptMessage 32
    return { clientHello with RandomInit := clientHello.RandomInit.copy first }, w)

/-- GenerateClientFailed Generate a client failed Packet. The client finds the
hello message is wrong. -/
def GenerateClientFailed (w : World) (cid sid : List Byte) : Except Fault SimSsl × World :=
  let w := rand.Seed w.now w
  let clientFailed : SimSsl :=
    { ContentType := 0x03
      Version := 0x01
      Length := 72
      Method := 0x01
      Mode := 0x02
      CheckSum := 0x00
      ClientID := sha256.Sum256 cid
      ServerID := sha256.Sum256 sid
      ExpirationTime := 0
      RandomInit := ByteArr.zero 32
      EncryptKey := ByteArr.zero 16 }
  (.ok clientFailed, w)

/-- GenerateServerErase Generate a ServerErase Packet. The server replies the
client. -/
def GenerateServerErase (w : World) (cid : ByteArr 32) (sid : List Byte) :
    Except Fault SimSsl × World :=
  let w := rand.Seed w.now w
  let serverErase : SimSsl :=
    { ContentType := 0x04
      Version := 0x01
      Length := 72
      Method := 0x01
      Mode := 0x02
      CheckSum := 0x00
      ClientID := cid
      ServerID := sha256.Sum256 sid
      ExpirationTime := 0
      RandomInit := ByteArr.zero 32
      EncryptKey := ByteArr.zero 16 }
  (.ok serverErase, w)

/-! ## The wire format -/

/-- The fields of a packet, in the declared order. -/
inductive WireField where
  | ContentType
  | Version
  | Length
  | Method
  | Mode
  | CheckSum
  | ClientID
  | ServerID
  | ExpirationTime
  | RandomInit
  | EncryptKey
  deriving DecidableEq, Repr

/-- All fields, in the declared order. -/
def WireField.all : List WireField :=
  [.ContentType, .Version, .Length, .Method, .Mode, .CheckSum, .ClientID, .ServerID,
   .ExpirationTime, .RandomInit, .EncryptKey]

end simssl

/-! ## The inverse cipher undoes the cipher -/

namespace simssl
namespace aes

theorem byte_xor_val (a b : Byte) : (a ^^^ b).val = a.val ^^^ b.val := by
  show (a.val ^^^ b.val) % 256 = _
  exact Nat.mod_eq_of_lt (@Nat.xor_lt_two_pow _ _ 8 a.isLt b.isLt)

theorem byte_xor_comm (a b : Byte) : a ^^^ b = b ^^^ a := by
  apply Fin.ext; rw [byte_xor_val, byte_xor_val, Nat.xor_comm]

theorem byte_xor_assoc (a b c : Byte) : (a ^^^ b) ^^^ c = a ^^^ (b ^^^ c) := by
  apply Fin.ext; simp only [byte_xor_val, Nat.xor_assoc]

theorem byte_xor_left_comm (a b c : Byte) : a ^^^ (b ^^^ c) = b ^^^ (a ^^^ c) := by
  rw [← byte_xor_assoc, byte_xor_comm a b, byte_xor_assoc]

theorem byte_xor_self (a : Byte) : a ^^^ a = 0 := by
  apply Fin.ext; rw [byte_xor_val, Nat.xor_self]; rfl

theorem byte_xor_zero (a : Byte) : a ^^^ 0 = a := by
  apply Fin.ext; rw [byte_xor_val]; simp

theorem byte_zero_xor (a : Byte) : 0 ^^^ a = a := by
  rw [byte_xor_comm, byte_xor_zero]

theorem byte_xor_cancel_left (a b : Byte) : a ^^^ (a ^^^ b) = b := by
  rw [← byte_xor_assoc, byte_xor_self, byte_zero_xor]

theorem byte_xor_cancel_right (a b : Byte) : (a ^^^ b) ^^^ b = a := by
  rw [byte_xor_assoc, byte_xor_self, byte_xor_zero]

set_option maxRecDepth 20000 in
theorem byte_high_bit : ∀ a : Byte, (128 ≤ a.val) ↔ a.val.testBit 7 = true := by decide

theorem xtime_val (b : Byte) :
    (xtime b).val = ((b.val * 2) ^^^ (if b.val.testBit 7 then 0x11b else 0)) % 256 := by
  unfold xtime
  by_cases h : 128 ≤ b.val
  · simp [h, (byte_high_bit b).1 h, Fin.ofNat]
  · have : b.val.testBit 7 = false := by
      cases hb : b.val.testBit 7
      · rfl
      · exact absurd ((byte_high_bit b).2 hb) h
    simp [h, this, Fin.ofNat]

theorem xtime_xor (a b : Byte) : xtime (a ^^^ b) = xtime a ^^^ xtime b := by
  apply Fin.ext
  rw [byte_xor_val, xtime_val, xtime_val, xtime_val, byte_xor_val]
  apply Nat.eq_of_testBit_eq
  intro i
  have h2 : ∀ x : Nat, x * 2 = x <<< 1 := fun x => by simp [Nat.shiftLeft_eq]
  simp only [h2, Nat.testBit_xor, show (256 : Nat) = 2 ^ 8 from rfl, Nat.testBit_mod_two_pow,
    Nat.testBit_shiftLeft]
  cases a.val.testBit 7 <;> cases b.val.testBit 7 <;>
    simp only [Bool.xor_false, Bool.xor_true, Bool.not_false, Bool.not_true, if_true,
      Bool.false_eq_true, if_false, Nat.zero_testBit, Bool.false_xor, Bool.true_xor] <;>
    cases decide (i < 8) <;> cases decide (1 ≤ i) <;> cases a.val.testBit (i - 1) <;>
    cases b.val.testBit (i - 1) <;> cases Nat.testBit 283 i <;> rfl

end aes
end simssl

namespace simssl
namespace aes

theorem mul3_xor (a b : Byte) : mul3 (a ^^^ b) = mul3 a ^^^ mul3 b := by
  simp only [mul3, xtime_xor, byte_xor_assoc, byte_xor_comm, byte_xor_left_comm]
theorem mul9_xor (a b : Byte) : mul9 (a ^^^ b) = mul9 a ^^^ mul9 b := by
  simp only [mul9, xtime_xor, byte_xor_assoc, byte_xor_comm, byte_xor_left_comm]
theorem mul11_xor (a b : Byte) : mul11 (a ^^^ b) = mul11 a ^^^ mul11 b := by
  simp only [mul11, xtime_xor, byte_xor_assoc, byte_xor_comm, byte_xor_left_comm]
theorem mul13_xor (a b : Byte) : mul13 (a ^^^ b) = mul13 a ^^^ mul13 b := by
  simp only [mul13, xtime_xor, byte_xor_assoc, byte_xor_comm, byte_xor_left_comm]
theorem mul14_xor (a b : Byte) : mul14 (a ^^^ b) = mul14 a ^^^ mul14 b := by
  simp only [mul14, xtime_xor, byte_xor_assoc, byte_xor_comm, byte_xor_left_comm]


theorem gf_coeffs (x : Byte) :
    (mul14 (xtime x) ^^^ mul11 x ^^^ mul13 x ^^^ mul9 (mul3 x) = x ∧
     mul14 (mul3 x) ^^^ mul11 (xtime x) ^^^ mul13 x ^^^ mul9 x = 0 ∧
     mul14 x ^^^ mul11 (mul3 x) ^^^ mul13 (xtime x) ^^^ mul9 x = 0 ∧
     mul14 x ^^^ mul11 x ^^^ mul13 (mul3 x) ^^^ mul9 (xtime x) = 0) ∧
    (mul9 (xtime x) ^^^ mul14 x ^^^ mul11 x ^^^ mul13 (mul3 x) = 0 ∧
     mul9 (mul3 x) ^^^ mul14 (xtime x) ^^^ mul11 x ^^^ mul13 x = x ∧
     mul9 x ^^^ mul14 (mul3 x) ^^^ mul11 (xtime x) ^^^ mul13 x = 0 ∧
     mul9 x ^^^ mul14 x ^^^ mul11 (mul3 x) ^^^ mul13 (xtime x) = 0) ∧
    (mul13 (xtime x) ^^^ mul9 x ^^^ mul14 x ^^^ mul11 (mul3 x) = 0 ∧
     mul13 (mul3 x) ^^^ mul9 (xtime x) ^^^ mul14 x ^^^ mul11 x = 0 ∧
     mul13 x ^^^ mul9 (mul3 x) ^^^ mul14 (xtime x) ^^^ mul11 x = x ∧
     mul13 x ^^^ mul9 x ^^^ mul14 (mul3 x) ^^^ mul11 (xtime x) = 0) ∧
    (mul11 (xtime x) ^^^ mul13 x ^^^ mul9 x ^^^ mul14 (mul3 x) = 0 ∧
     mul11 (mul3 x) ^^^ mul13 (xtime x) ^^^ mul9 x ^^^ mul14 x = 0 ∧
     mul11 x ^^^ mul13 (mul3 x) ^^^ mul9 (xtime x) ^^^ mul14 x = 0 ∧
     mul11 x ^^^ mul13 x ^^^ mul9 (mul3 x) ^^^ mul14 (xtime x) = x) := by
  simp only [mul3, mul9, mul11, mul13, mul14, xtime_xor]
  generalize xtime (xtime (xtime (xtime x))) = x4
  generalize xtime (xtime (xtime x)) = x3
  generalize xtime (xtime x) = x2
  generalize xtime x = x1
  simp only [byte_xor_assoc, byte_xor_comm, byte_xor_left_comm, byte_xor_self, byte_xor_zero,
    byte_xor_cancel_left, and_self]

theorem xor_transpose (p1 p2 p3 p4 q1 q2 q3 q4 r1 r2 r3 r4 s1 s2 s3 s4 : Byte) :
    (p1 ^^^ p2 ^^^ p3 ^^^ p4) ^^^ (q1 ^^^ q2 ^^^ q3 ^^^ q4) ^^^ (r1 ^^^ r2 ^^^ r3 ^^^ r4) ^^^
      (s1 ^^^ s2 ^^^ s3 ^^^ s4) =
    (p1 ^^^ q1 ^^^ r1 ^^^ s1) ^^^ (p2 ^^^ q2 ^^^ r2 ^^^ s2) ^^^ (p3 ^^^ q3 ^^^ r3 ^^^ s3) ^^^
      (p4 ^^^ q4 ^^^ r4 ^^^ s4) := by
  simp only [byte_xor_assoc, byte_xor_comm, byte_xor_left_comm]

theorem invMixColumn_mixColumn (w : Word) : invMixColumn (mixColumn w) = w := by
  cases w with
  | mk a b c d =>
    have ha := gf_coeffs a
    have hb := gf_coeffs b
    have hc := gf_coeffs c
    have hd := gf_coeffs d
    simp only [mixColumn, invMixColumn, mul14_xor, mul11_xor, mul13_xor, mul9_xor]
    congr 1
    · rw [xor_transpose, ha.1.1, hb.1.2.1, hc.1.2.2.1, hd.1.2.2.2]
      simp only [byte_xor_zero]
    · rw [xor_transpose, ha.2.1.1, hb.2.1.2.1, hc.2.1.2.2.1, hd.2.1.2.2.2]
      simp only [byte_xor_zero, byte_zero_xor]
    · rw [xor_transpose, ha.2.2.1.1, hb.2.2.1.2.1, hc.2.2.1.2.2.1, hd.2.2.1.2.2.2]
      simp only [byte_xor_zero, byte_zero_xor]
    · rw [xor_transpose, ha.2.2.2.1, hb.2.2.2.2.1, hc.2.2.2.2.2.1, hd.2.2.2.2.2.2]
      simp only [byte_xor_zero, byte_zero_xor]

set_option maxRecDepth 20000 in
theorem invSubByte_subByte : ∀ b : Byte, invSubByte (subByte b) = b := by decide

theorem Word.xor_xor (w k : Word) : (w.xor k).xor k = w := by
  cases w; cases k; simp [Word.xor, byte_xor_cancel_right]

theorem addRoundKey_addRoundKey (k s : State) : addRoundKey k (addRoundKey k s) = s := by
  cases s; simp [addRoundKey, Word.xor_xor]

theorem invShiftRows_shiftRows (s : State) : invShiftRows (shiftRows s) = s := by
  obtain ⟨⟨_, _, _, _⟩, ⟨_, _, _, _⟩, ⟨_, _, _, _⟩, ⟨_, _, _, _⟩⟩ := s
  rfl

theorem invSubBytes_subBytes (s : State) : invSubBytes (subBytes s) = s := by
  obtain ⟨⟨_, _, _, _⟩, ⟨_, _, _, _⟩, ⟨_, _, _, _⟩, ⟨_, _, _, _⟩⟩ := s
  simp [invSubBytes, subBytes, Word.map, invSubByte_subByte]

theorem invMixColumns_mixColumns (s : State) : invMixColumns (mixColumns s) = s := by
  cases s; simp [invMixColumns, mixColumns, invMixColumn_mixColumn]

theorem decRounds_encRounds (ks : List State) (s : State) : decRounds ks (encRounds ks s) = s := by
  induction ks generalizing s with
  | nil => rfl
  | cons k ks ih =>
    cases ks with
    | nil =>
      simp [encRounds, decRounds, addRoundKey_addRoundKey, invShiftRows_shiftRows,
        invSubBytes_subBytes]
    | cons k2 ks =>
      simp [encRounds, decRounds, ih, addRoundKey_addRoundKey, invShiftRows_shiftRows,
        invSubBytes_subBytes, invMixColumns_mixColumns]

theorem invCipher_cipher (rks : List State) (s : State) : invCipher rks (cipher rks s) = s := by
  cases rks with
  | nil => rfl
  | cons k0 ks => simp [cipher, invCipher, decRounds_encRounds, addRoundKey_addRoundKey]

end aes
end simssl

/-! ## Blocks and CBC chaining -/

namespace simssl

open aes

theorem aes.State.length_toList (s : State) : s.toList.length = 16 := rfl

theorem aes.State.ofList_toList (s : State) : State.ofList s.toList = s := by
  obtain ⟨⟨_, _, _, _⟩, ⟨_, _, _, _⟩, ⟨_, _, _, _⟩, ⟨_, _, _, _⟩⟩ := s
  rfl

theorem list_length_sixteen (l : List Byte) (h : l.length = 16) :
    ∃ a0 a1 a2 a3 a4 a5 a6 a7 a8 a9 a10 a11 a12 a13 a14 a15,
      l = [a0, a1, a2, a3, a4, a5, a6, a7, a8, a9, a10, a11, a12, a13, a14, a15] := by
  match l, h with
  | [a0, a1, a2, a3, a4, a5, a6, a7, a8, a9, a10, a11, a12, a13, a14, a15], _ =>
    exact ⟨a0, a1, a2, a3, a4, a5, a6, a7, a8, a9, a10, a11, a12, a13, a14, a15, rfl⟩

theorem aes.State.toList_ofList (l : List Byte) (h : l.length = 16) :
    (State.ofList l).toList = l := by
  obtain ⟨a0, a1, a2, a3, a4, a5, a6, a7, a8, a9, a10, a11, a12, a13, a14, a15, rfl⟩ :=
    list_length_sixteen l h
  rfl

theorem Block.length_Encrypt (b : Block) (src : List Byte) : (b.Encrypt src).length = 16 := rfl

theorem Block.length_Decrypt (b : Block) (src : List Byte) : (b.Decrypt src).length = 16 := rfl

theorem Block.Decrypt_Encrypt (b : Block) (src : List Byte) (h : src.length = 16) :
    b.Decrypt (b.Encrypt src) = src := by
  unfold Block.Decrypt Block.Encrypt
  rw [State.ofList_toList, invCipher_cipher, State.toList_ofList src h]


theorem length_xorBytes (a b : List Byte) : (xorBytes a b).length = min a.length b.length := by
  simp [xorBytes]

theorem xorBytes_xorBytes (a b : List Byte) (h : a.length = b.length) :
    xorBytes (xorBytes a b) b = a := by
  induction a generalizing b with
  | nil => simp [xorBytes]
  | cons x xs ih =>
    cases b with
    | nil => simp at h
    | cons y ys =>
      have h2 : xs.length = ys.length := by simpa using h
      have := ih ys h2
      simp only [xorBytes] at this ⊢
      simp [List.zipWith, this, byte_xor_cancel_right]

theorem length_encryptBlocks (b : Block) (n : Nat) (iv src : List Byte) :
    (encryptBlocks b n iv src).length = 16 * n := by
  induction n generalizing iv src with
  | zero => rfl
  | succ n ih => simp [encryptBlocks, ih, Block.length_Encrypt]; omega

theorem length_decryptBlocks (b : Block) (n : Nat) (iv src : List Byte) (hiv : iv.length = 16)
    (hsrc : 16 * n ≤ src.length) : (decryptBlocks b n iv src).length = 16 * n := by
  induction n generalizing iv src with
  | zero => rfl
  | succ n ih =>
    simp only [decryptBlocks, List.length_append, length_xorBytes, Block.length_Decrypt, hiv]
    rw [ih _ _ (by simp; omega) (by simp; omega)]; omega

theorem decryptBlocks_encryptBlocks_take (b : Block) (m n : Nat) (iv src : List Byte)
    (hmn : m ≤ n) (hiv : iv.length = 16) (hsrc : 16 * n ≤ src.length) :
    decryptBlocks b m iv ((encryptBlocks b n iv src).take (16 * m)) = src.take (16 * m) := by
  induction m generalizing n iv src with
  | zero => simp [decryptBlocks]
  | succ m ih =>
    obtain ⟨n, rfl⟩ : ∃ k, n = k + 1 := ⟨n - 1, by omega⟩
    have hlen : (b.Encrypt (xorBytes (List.take 16 src) iv)).length = 16 := rfl
    have htake : (List.take 16 src).length = iv.length := by simp [hiv]; omega
    have h1 : List.take 16 (List.take (16 * (m + 1))
        (b.Encrypt (xorBytes (List.take 16 src) iv) ++
          encryptBlocks b n (b.Encrypt (xorBytes (List.take 16 src) iv)) (List.drop 16 src))) =
        b.Encrypt (xorBytes (List.take 16 src) iv) := by
      rw [List.take_take, show min 16 (16 * (m + 1)) = 16 by omega, List.take_append_of_le_length
        (by rw [hlen]), List.take_of_length_le (by rw [hlen])]
    have h2 : List.drop 16 (List.take (16 * (m + 1))
        (b.Encrypt (xorBytes (List.take 16 src) iv) ++
          encryptBlocks b n (b.Encrypt (xorBytes (List.take 16 src) iv)) (List.drop 16 src))) =
        List.take (16 * m)
          (encryptBlocks b n (b.Encrypt (xorBytes (List.take 16 src) iv)) (List.drop 16 src)) := by
      rw [List.drop_take, show 16 * (m + 1) - 16 = 16 * m by omega, List.drop_append_of_le_length
        (by rw [hlen]), List.drop_of_length_le (by rw [hlen]), List.nil_append]
    simp only [encryptBlocks, decryptBlocks]
    rw [h1, h2, Block.Decrypt_Encrypt _ _ (by rw [length_xorBytes, hiv]; simp; omega),
      xorBytes_xorBytes _ _ htake, ih n _ _ (by omega) hlen (by simp; omega)]
    rw [← List.take_add]
    congr 1
    omega

theorem decryptBlocks_encryptBlocks (b : Block) (n : Nat) (iv src : List Byte)
    (hiv : iv.length = 16) (hsrc : src.length = 16 * n) :
    decryptBlocks b n iv (encryptBlocks b n iv src) = src := by
  have h := decryptBlocks_encryptBlocks_take b n n iv src (Nat.le_refl n) hiv (by omega)
  rwa [List.take_of_length_le (by rw [length_encryptBlocks]),
    List.take_of_length_le (by omega)] at h

/-- The example vector of FIPS-197, appendix C.1 (AES-128). -/
theorem aes128_example_vector :
    (aes.NewCipher [0x00, 0x01, 0x02, 0x03, 0x04, 0x05, 0x06, 0x07, 0x08, 0x09, 0x0a, 0x0b, 0x0c,
        0x0d, 0x0e, 0x0f]).map
      (fun b => b.Encrypt [0x00, 0x11, 0x22, 0x33, 0x44, 0x55, 0x66, 0x77, 0x88, 0x99, 0xaa, 0xbb,
        0xcc, 0xdd, 0xee, 0xff]) =
      .ok [0x69, 0xc4, 0xe0, 0xd8, 0x6a, 0x7b, 0x04, 0x30, 0xd8, 0xcd, 0xb7, 0x80, 0x70, 0xb4,
        0xc5, 0x5a] := by
  decide!

/-- The example vector of FIPS-197, appendix C.2 (AES-192). -/
theorem aes192_example_vector :
    (aes.NewCipher [0x00, 0x01, 0x02, 0x03, 0x04, 0x05, 0x06, 0x07, 0x08, 0x09, 0x0a, 0x0b, 0x0c,
        0x0d, 0x0e, 0x0f, 0x10, 0x11, 0x12, 0x13, 0x14, 0x15, 0x16, 0x17]).map
      (fun b => b.Encrypt [0x00, 0x11, 0x22, 0x33, 0x44, 0x55, 0x66, 0x77, 0x88, 0x99, 0xaa, 0xbb,
        0xcc, 0xdd, 0xee, 0xff]) =
      .ok [0xdd, 0xa9, 0x7c, 0xa4, 0x86, 0x4c, 0xdf, 0xe0, 0x6e, 0xaf, 0x70, 0xa0, 0xec, 0x0d,
        0x71, 0x91] := by
  decide!

/-- The example vector of FIPS-197, appendix C.3 (AES-256). -/
theorem aes256_example_vector :
    (aes.NewCipher [0x00, 0x01, 0x02, 0x03, 0x04, 0x05, 0x06, 0x07, 0x08, 0x09, 0x0a, 0x0b, 0x0c,
        0x0d, 0x0e, 0x0f, 0x10, 0x11, 0x12, 0x13, 0x14, 0x15, 0x16, 0x17, 0x18, 0x19, 0x1a, 0x1b,
        0x1c, 0x1d, 0x1e, 0x1f]).map
      (fun b => b.Encrypt [0x00, 0x11, 0x22, 0x33, 0x44, 0x55, 0x66, 0x77, 0x88, 0x99, 0xaa, 0xbb,
        0xcc, 0xdd, 0xee, 0xff]) =
      .ok [0x8e, 0xa2, 0xb7, 0xca, 0x51, 0x67, 0x45, 0xbf, 0xea, 0xfc, 0x49, 0x90, 0x4b, 0x49,
        0x60, 0x89] := by
  decide!

/-- The digest of the three bytes `abc` (FIPS 180-4 example). -/
theorem sha256_example_vector :
    (sha256.Sum256 [0x61, 0x62, 0x63]).val =
      [0xba, 0x78, 0x16, 0xbf, 0x8f, 0x01, 0xcf, 0xea, 0x41, 0x41, 0x40, 0xde, 0x5d, 0xae, 0x22,
        0x23, 0xb0, 0x03, 0x61, 0xa3, 0x96, 0x17, 0x7a, 0x9c, 0xb4, 0x10, 0xff, 0x61, 0xf2, 0x00,
        0x15, 0xad] := by
  decide!

end simssl

/-! ## What `AesEncrypt` and `AesDecrypt` compute -/

namespace simssl

open aes

theorem NewCipher_ok (key : List Byte) (hk : key.length = 16 ∨ key.length = 24 ∨ key.length = 32) :
    aes.NewCipher key = .ok ⟨roundKeys key⟩ := by
  simp [aes.NewCipher, hk]

theorem NewCipher_error (key : List Byte)
    (hk : ¬ (key.length = 16 ∨ key.length = 24 ∨ key.length = 32)) :
    aes.NewCipher key = .error (.KeySizeError key.length) := by
  simp [aes.NewCipher, hk]

theorem sliceTo_key (key : List Byte) (b : Block)
    (hk : key.length = 16 ∨ key.length = 24 ∨ key.length = 32) :
    sliceTo key b.BlockSize = .ok (key.take 16) := by
  have : (16 : Int) ≤ (key.length : Int) := by omega
  simp [sliceTo, Block.BlockSize, this]

theorem length_take_key (key : List Byte)
    (hk : key.length = 16 ∨ key.length = 24 ∨ key.length = 32) : (key.take 16).length = 16 := by
  simp; omega

theorem byteOfInt_natCast (n : Nat) (h : n < 256) : byteOfInt (n : Int) = Fin.ofNat n := by
  unfold byteOfInt
  congr 1
  omega

theorem PKCS5Padding_sixteen (p : List Byte) :
    PKCS5Padding p 16 =
      .ok (p ++ List.replicate (16 - p.length % 16) (Fin.ofNat (16 - p.length % 16))) := by
  have h1 : Int.tmod (p.length : Int) 16 = ((p.length % 16 : Nat) : Int) := by
    rw [Int.tmod_eq_emod (by omega) (by omega)]; omega
  have h2 : (16 : Int) - ((p.length % 16 : Nat) : Int) = ((16 - p.length % 16 : Nat) : Int) := by
    omega
  unfold PKCS5Padding
  rw [if_neg (by decide), h1, h2, if_neg (by omega), byteOfInt_natCast _ (by omega)]
  rfl

theorem length_padded (p : List Byte) :
    (p ++ List.replicate (16 - p.length % 16) (Fin.ofNat (16 - p.length % 16) : Byte)).length =
      16 * (p.length / 16 + 1) := by
  simp; omega

theorem AesEncrypt_eq (p key : List Byte)
    (hk : key.length = 16 ∨ key.length = 24 ∨ key.length = 32) :
    AesEncrypt p key = .ok (encryptBlocks ⟨roundKeys key⟩ (p.length / 16 + 1) (key.take 16)
      (p ++ List.replicate (16 - p.length % 16) (Fin.ofNat (16 - p.length % 16)))) := by
  have hl := length_padded p
  unfold AesEncrypt
  simp only [NewCipher_ok key hk, bind, Except.bind, Block.BlockSize, PKCS5Padding_sixteen]
  have := sliceTo_key key ⟨roundKeys key⟩ hk
  simp only [Block.BlockSize] at this
  simp only [this, NewCBCEncrypter, Block.BlockSize, length_take_key key hk, cbcEncrypter.CryptBlocks,
    hl, pure, Except.pure]
  simp

theorem index_natCast (l : List Byte) (i : Nat) (h : i < l.length) :
    index l (i : Int) = .ok (l.getD i 0) := by
  have : (i : Int) < (l.length : Int) := by omega
  simp [index, this]

theorem AesDecrypt_loop_spec (d : List Byte) (p : Int) (fuel s : Nat) (h : s + fuel ≤ d.length) :
    ∃ r, AesDecrypt.loop d p fuel (s : Int) = .ok r ∧
      (r = true ↔ ∀ j, s ≤ j → j < s + fuel → ((d.getD j 0).val : Int) = p) := by
  induction fuel generalizing s with
  | zero => exact ⟨true, rfl, by simp; intro j h1 h2; omega⟩
  | succ n ih =>
    unfold AesDecrypt.loop
    rw [index_natCast d s (by omega)]
    simp only [bind, Except.bind]
    by_cases hb : ((d.getD s 0).val : Int) = p
    · obtain ⟨r, hr, hiff⟩ := ih (s + 1) (by omega)
      refine ⟨r, ?_, ?_⟩
      · simp only [hb, ne_eq, not_true_eq_false, if_false]
        exact_mod_cast hr
      · rw [hiff]
        constructor
        · intro hall j h1 h2
          by_cases hj : j = s
          · rw [hj]; exact hb
          · exact hall j (by omega) (by omega)
        · intro hall j h1 h2
          exact hall j (by omega) (by omega)
    · refine ⟨false, ?_, ?_⟩
      · simp only [hb, ne_eq, not_false_eq_true, if_true]
        rfl
      · simp only [Bool.false_eq_true, false_iff, not_forall]
        exact ⟨s, by omega, by omega, hb⟩

theorem AesDecrypt_spec (crypted key : List Byte)
    (hk : key.length = 16 ∨ key.length = 24 ∨ key.length = 32)
    (hlen : crypted.length % 16 = 0) (hne : crypted ≠ []) :
    ∃ len, AesDecrypt crypted key =
        .ok ⟨decryptBlocks ⟨roundKeys key⟩ (crypted.length / 16) (key.take 16) crypted, len⟩ ∧
      (16 < ((decryptBlocks ⟨roundKeys key⟩ (crypted.length / 16) (key.take 16) crypted).getD
          (crypted.length - 1) 0).val → len = crypted.length) ∧
      (((decryptBlocks ⟨roundKeys key⟩ (crypted.length / 16) (key.take 16) crypted).getD
          (crypted.length - 1) 0).val ≤ 16 →
        ((∀ j, crypted.length - ((decryptBlocks ⟨roundKeys key⟩ (crypted.length / 16)
              (key.take 16) crypted).getD (crypted.length - 1) 0).val ≤ j →
            j < ((decryptBlocks ⟨roundKeys key⟩ (crypted.length / 16) (key.take 16) crypted).getD
              (crypted.length - 1) 0).val →
            ((decryptBlocks ⟨roundKeys key⟩ (crypted.length / 16) (key.take 16) crypted).getD j
              0).val =
            ((decryptBlocks ⟨roundKeys key⟩ (crypted.length / 16) (key.take 16) crypted).getD
              (crypted.length - 1) 0).val) →
          len = crypted.length - ((decryptBlocks ⟨roundKeys key⟩ (crypted.length / 16)
            (key.take 16) crypted).getD (crypted.length - 1) 0).val) ∧
        (¬ (∀ j, crypted.length - ((decryptBlocks ⟨roundKeys key⟩ (crypted.length / 16)
              (key.take 16) crypted).getD (crypted.length - 1) 0).val ≤ j →
            j < ((decryptBlocks ⟨roundKeys key⟩ (crypted.length / 16) (key.take 16) crypted).getD
              (crypted.length - 1) 0).val →
            ((decryptBlocks ⟨roundKeys key⟩ (crypted.length / 16) (key.take 16) crypted).getD j
              0).val =
            ((decryptBlocks ⟨roundKeys key⟩ (crypted.length / 16) (key.take 16) crypted).getD
              (crypted.length - 1) 0).val) →
          len = crypted.length)) := by
  have hpos : 16 ≤ crypted.length := by
    cases crypted with
    | nil => exact absurd rfl hne
    | cons x xs => simp only [List.length_cons] at hlen ⊢; omega
  have hd : (decryptBlocks ⟨roundKeys key⟩ (crypted.length / 16) (key.take 16) crypted).length =
      crypted.length := by
    rw [length_decryptBlocks _ _ _ _ (length_take_key key hk) (by omega)]; omega
  have hsl := sliceTo_key key ⟨roundKeys key⟩ hk
  simp only [Block.BlockSize] at hsl
  unfold AesDecrypt
  simp only [NewCipher_ok key hk, bind, Except.bind, Block.BlockSize, hsl, NewCBCDecrypter,
    length_take_key key hk, cbcDecrypter.CryptBlocks, hlen, pure, Except.pure]
  simp only [ne_eq, not_true_eq_false, if_false, Nat.cast_ofNat]
  generalize decryptBlocks ⟨roundKeys key⟩ (crypted.length / 16) (key.take 16) crypted = d at hd ⊢
  generalize crypted.length = L at hd hpos
  subst hd
  have hidx : ((d.length : Int) - 1) = ((d.length - 1 : Nat) : Int) := by omega
  rw [hidx, index_natCast d _ (by omega)]
  simp only []
  generalize hp : (d.getD (d.length - 1) 0).val = p
  have hp256 : p < 256 := by rw [← hp]; exact (d.getD (d.length - 1) 0).isLt
  by_cases hbig : 16 < p
  · refine ⟨d.length, ?_, fun _ => rfl, fun h => absurd hbig (by omega)⟩
    have : ((p : Int) > 16) := by omega
    simp only [this, if_true, Slice.ofBytes]
  · have hnot : ¬ ((p : Int) > 16) := by omega
    simp only [hnot, if_false]
    have hstart : ((d.length : Int) - (p : Int)) = ((d.length - p : Nat) : Int) := by omega
    rw [hstart]
    have hfuel : ((p : Int) - ((d.length - p : Nat) : Int)).toNat = p - (d.length - p) := by omega
    rw [hfuel]
    obtain ⟨r, hr, hiff⟩ := AesDecrypt_loop_spec d (p : Int) (p - (d.length - p)) (d.length - p)
      (by omega)
    rw [hr]
    simp only []
    have hrange : (∀ j, d.length - p ≤ j → j < d.length - p + (p - (d.length - p)) →
        ((d.getD j 0).val : Int) = (p : Int)) ↔
        (∀ j, d.length - p ≤ j → j < p → (d.getD j 0).val = p) := by
      constructor
      · intro h j h1 h2
        exact_mod_cast h j h1 (by omega)
      · intro h j h1 h2
        exact_mod_cast h j h1 (by omega)
    rw [hrange] at hiff
    cases r with
    | false =>
      refine ⟨d.length, rfl, fun h => absurd h hbig, fun _ => ⟨fun hall => ?_, fun _ => rfl⟩⟩
      exact absurd (hiff.2 hall) (by simp)
    | true =>
      have hall := hiff.1 rfl
      refine ⟨d.length - p, ?_, fun h => absurd h hbig, fun _ => ⟨fun _ => rfl, fun h => absurd hall h⟩⟩
      simp only [Bool.not_true, Bool.false_eq_true, if_false, PKCS5UnPadding, Slice.index,
        Slice.ofBytes, Slice.bytes, List.take_length, bind, Except.bind, Slice.sliceTo, Slice.cap]
      rw [hidx, index_natCast d _ (by omega)]
      simp only [hp]
      have h1 : (0 : Int) ≤ (d.length : Int) - (p : Int) ∧
          (d.length : Int) - (p : Int) ≤ (d.length : Int) := by omega
      rw [if_pos h1, hstart]
      rfl

end simssl

/-! ## What `GenerateServerHello` and `CheckKey` compute -/

namespace simssl

open aes

/-- The 32-byte buffer `origData` that `AesDecrypt` fills when it is given a
32-byte array and a 16-byte key. -/
theorem length_decrypt32 (c : ByteArr 32) (k : ByteArr 16) :
    (decryptBlocks ⟨roundKeys k.val⟩ 2 (k.val.take 16) c.val).length = 32 := by
  rw [length_decryptBlocks _ _ _ _ (by simp [k.property]) (by simp [c.property])]

theorem AesDecrypt_array (c : ByteArr 32) (k : ByteArr 16) :
    ∃ len, AesDecrypt c.val k.val =
      .ok ⟨decryptBlocks ⟨roundKeys k.val⟩ 2 (k.val.take 16) c.val, len⟩ := by
  have hne : c.val ≠ [] := by
    intro h
    have := c.property
    rw [h] at this
    simp at this
  obtain ⟨len, h, -⟩ := AesDecrypt_spec c.val k.val (Or.inl k.property)
    (by rw [c.property]) hne
  rw [c.property] at h
  exact ⟨len, h⟩

theorem ByteArr.copy_full {n : Nat} (dst : ByteArr n) (src : List Byte) (h : src.length = n) :
    dst.copy src = ⟨src, h⟩ := by
  apply Subtype.ext
  have hd := dst.property
  simp only [ByteArr.copy]
  rw [List.take_of_length_le (by omega), List.drop_of_length_le (by omega), List.append_nil]

theorem sliceTo_decrypted (d : List Byte) (len : Nat) (h : d.length = 32) :
    (Slice.mk d len).sliceTo 32 = .ok ⟨d, 32⟩ := by
  simp [Slice.sliceTo, Slice.cap, h]

theorem GenerateServerHello_eq (w : World) (cid : ByteArr 32) (sid : List Byte)
    (randomInit : ByteArr 32) (encryptKey : ByteArr 16) (timestamp : Int) :
    GenerateServerHello w cid sid randomInit encryptKey timestamp =
      (.ok
        { ContentType := 0x02
          Version := 0x01
          Length := 112
          Method := 0x01
          Mode := 0x02
          CheckSum := 0x00
          ClientID := cid
          ServerID := sha256.Sum256 sid
          ExpirationTime := timestamp
          RandomInit := ⟨decryptBlocks ⟨roundKeys encryptKey.val⟩ 2 (encryptKey.val.take 16)
            randomInit.val, length_decrypt32 randomInit encryptKey⟩
          EncryptKey := ByteArr.zero 16 }, rand.Seed w.now w) := by
  obtain ⟨len, h⟩ := AesDecrypt_array randomInit encryptKey
  have hl := length_decrypt32 randomInit encryptKey
  unfold GenerateServerHello
  simp only [h, bind, Except.bind, sliceTo_decrypted _ len hl, pure, Except.pure, Slice.bytes]
  congr 3
  rw [ByteArr.copy_full _ _ (by rw [List.take_of_length_le (by omega)]; exact hl)]
  apply Subtype.ext
  exact List.take_of_length_le (by omega)

theorem CheckKey_eq (A B : SimSsl) :
    CheckKey A B = .ok (decide (A.ClientID = B.ClientID ∧ A.ExpirationTime = B.ExpirationTime ∧
      decryptBlocks ⟨roundKeys A.EncryptKey.val⟩ 2 (A.EncryptKey.val.take 16) A.RandomInit.val =
        B.RandomInit.val)) := by
  obtain ⟨len, h⟩ := AesDecrypt_array A.RandomInit A.EncryptKey
  have hl := length_decrypt32 A.RandomInit A.EncryptKey
  unfold CheckKey
  by_cases h1 : A.ClientID = B.ClientID
  · by_cases h2 : A.ExpirationTime = B.ExpirationTime
    · simp only [h1, h2, ne_eq, not_true_eq_false, if_false, true_and, h, bind, Except.bind,
        sliceTo_decrypted _ len hl, pure, Except.pure, Slice.bytes]
      rw [ByteArr.copy_full _ _ (by rw [List.take_of_length_le (by omega)]; exact hl)]
      simp only [List.take_of_length_le (Nat.le_of_eq hl)]
      by_cases h3 : decryptBlocks ⟨roundKeys A.EncryptKey.val⟩ 2 (A.EncryptKey.val.take 16)
          A.RandomInit.val = B.RandomInit.val
      · have : (⟨decryptBlocks ⟨roundKeys A.EncryptKey.val⟩ 2 (A.EncryptKey.val.take 16)
            A.RandomInit.val, hl⟩ : ByteArr 32) = B.RandomInit := Subtype.ext h3
        simp [this, h3]
      · have : (⟨decryptBlocks ⟨roundKeys A.EncryptKey.val⟩ 2 (A.EncryptKey.val.take 16)
            A.RandomInit.val, hl⟩ : ByteArr 32) ≠ B.RandomInit := fun e => h3 (congrArg Subtype.val e)
        simp [this, h3]
    · simp [h1, h2, pure, Except.pure, bind, Except.bind]
  · simp [h1, pure, Except.pure, bind, Except.bind]

end simssl

/-! ## Arithmetic of the checksum -/

namespace simssl

theorem word_of_bytes (a b : Byte) : ((a.val <<< 8) % 2 ^ 16) ||| b.val = a.val * 256 + b.val := by
  have ha := a.isLt
  have hb : b.val < 2 ^ 8 := b.isLt
  rw [Nat.shiftLeft_eq, Nat.mod_eq_of_lt (by omega), Nat.mul_comm, Nat.mul_add_lt_is_or hb]

theorem word_of_byte (a : Byte) : (a.val <<< 8) % 2 ^ 16 = a.val * 256 := by
  have ha := a.isLt
  rw [Nat.shiftLeft_eq, Nat.mod_eq_of_lt (by omega)]

theorem and_low16 (x : Nat) : x &&& 0x0000ffff = x % 65536 :=
  Nat.and_pow_two_sub_one_eq_mod x 16

theorem shr16 (x : Nat) : x >>> 16 = x / 65536 := Nat.shiftRight_eq_div_pow x 16

theorem and_high16_ne_zero (x : Nat) (h : x < 2 ^ 32) : x &&& 0xffff0000 ≠ 0 ↔ 65536 ≤ x := by
  constructor
  · intro hne
    by_contra hlt
    apply hne
    apply Nat.eq_of_testBit_eq
    intro i
    rw [Nat.testBit_and, Nat.zero_testBit]
    by_cases hi : i < 16
    · have : Nat.testBit 0xffff0000 i = false := by interval_cases i <;> rfl
      rw [this, Bool.and_false]
    · have : x.testBit i = false :=
        Nat.testBit_lt_two_pow (Nat.lt_of_lt_of_le (show x < 2 ^ 16 by omega)
          (Nat.pow_le_pow_right (by omega) (by omega)))
      rw [this, Bool.false_and]
  · intro hge
    obtain ⟨i, hi, hbit⟩ := Nat.ge_two_pow_implies_high_bit_true (show x ≥ 2 ^ 16 from hge)
    have hi32 : i < 32 := by
      by_contra hge32
      have : x.testBit i = false :=
        Nat.testBit_lt_two_pow (Nat.lt_of_lt_of_le h (Nat.pow_le_pow_right (by omega) (by omega)))
      rw [this] at hbit
      exact absurd hbit (by decide)
    intro hz
    have hm : Nat.testBit 0xffff0000 i = true := by interval_cases i <;> rfl
    have : (x &&& 0xffff0000).testBit i = true := by rw [Nat.testBit_and, hbit, hm]; rfl
    rw [hz, Nat.zero_testBit] at this
    exact absurd this (by decide)

theorem xor_ffff (x : Nat) (h : x < 65536) : x ^^^ 0xffff = 65535 - x := by
  have h2 : x < 2 ^ 16 := h
  apply Nat.eq_of_testBit_eq
  intro i
  rw [show 65535 - x = 2 ^ 16 - (x + 1) by omega, Nat.testBit_two_pow_sub_succ h2,
    Nat.testBit_xor, show (0xffff : Nat) = 2 ^ 16 - 1 from rfl, Nat.testBit_two_pow_sub_one]
  by_cases hi : i < 16
  · simp [hi]
  · have : x.testBit i = false :=
      Nat.testBit_lt_two_pow (Nat.lt_of_lt_of_le h2 (Nat.pow_le_pow_right (by omega) (by omega)))
    simp [hi, this]

/-- The representative in `0 .. 65535` that the ones'-complement sum takes for
a true sum `s`: zero only for `s = 0`, otherwise the residue of `s` modulo
65535 taken in `1 .. 65535`. -/
theorem onesAdd_residue (s w : Nat) (hw : w ≤ 65535) :
    onesAdd (if s = 0 then 0 else (s - 1) % 65535 + 1) w =
      (if s + w = 0 then 0 else (s + w - 1) % 65535 + 1) := by
  unfold onesAdd
  by_cases hs : s = 0
  · subst hs
    simp only [if_true, Nat.zero_add]
    split <;> omega
  · simp only [hs, if_false]
    split <;> omega

theorem specWords_le (l : List Byte) : ∀ w ∈ specWords l, w ≤ 65535 := by
  induction l using specWords.induct with
  | case1 => simp [specWords]
  | case2 a =>
    have := a.isLt
    simp [specWords]; omega
  | case3 a b rest ih =>
    have := a.isLt
    have := b.isLt
    intro w hw
    simp only [specWords, List.mem_cons] at hw
    rcases hw with h | h
    · omega
    · exact ih w h

theorem foldl_onesAdd (ws : List Nat) (hws : ∀ w ∈ ws, w ≤ 65535) (s : Nat) :
    ws.foldl onesAdd (if s = 0 then 0 else (s - 1) % 65535 + 1) =
      (if s + ws.sum = 0 then 0 else (s + ws.sum - 1) % 65535 + 1) := by
  induction ws generalizing s with
  | nil => simp
  | cons w ws ih =>
    rw [List.foldl_cons, onesAdd_residue s w (hws w (List.mem_cons_self _ _)),
      ih (fun x hx => hws x (List.mem_cons_of_mem _ hx)), List.sum_cons, Nat.add_assoc]

theorem onesSum_eq (ws : List Nat) (hws : ∀ w ∈ ws, w ≤ 65535) :
    onesSum ws = (if ws.sum = 0 then 0 else (ws.sum - 1) % 65535 + 1) := by
  have := foldl_onesAdd ws hws 0
  simpa [onesSum] using this

theorem sum_specWords_le (l : List Byte) : (specWords l).sum ≤ 65535 * ((l.length + 1) / 2) := by
  induction l using specWords.induct with
  | case1 => simp [specWords]
  | case2 a =>
    have := a.isLt
    simp [specWords]; omega
  | case3 a b rest ih =>
    have := a.isLt
    have := b.isLt
    simp only [specWords, List.sum_cons, List.length_cons]
    omega

end simssl

/-! ## The loop and the folds of `CheckSum` -/

namespace simssl

theorem index_append (pre rest : List Byte) (b : Byte) :
    index (pre ++ b :: rest) (pre.length : Int) = .ok b := by
  rw [index_natCast _ _ (by simp), List.getD_eq_getElem?_getD,
    List.getElem?_append_right (Nat.le_refl _), Nat.sub_self]
  simp

theorem CheckSum_loop_spec (n : Nat) : ∀ (pre rest : List Byte) (acc : Nat), n ≤ rest.length →
    acc + 65535 * (n / 2) < 2 ^ 32 →
    CheckSum.loop (pre ++ rest) n (pre.length : Int) acc =
      .ok (n % 2, ((pre.length + (n - n % 2) : Nat) : Int),
        acc + (specWords (rest.take (n - n % 2))).sum) := by
  induction n using Nat.strongRecOn with
  | _ n ih =>
    intro pre rest acc hn hacc
    match n, ih, hn, hacc with
    | 0, _, _, _ => simp [CheckSum.loop, specWords]
    | 1, _, _, _ => simp [CheckSum.loop, specWords]
    | n + 2, ih, hn, hacc =>
      match rest, hn with
      | a :: b :: rest, hn =>
        have ha := a.isLt
        have hb := b.isLt
        have h1 : index (pre ++ a :: b :: rest) (pre.length : Int) = .ok a := index_append _ _ _
        have h2 : index (pre ++ a :: b :: rest) ((pre.length : Int) + 1) = .ok b := by
          have := index_append (pre ++ [a]) rest b
          simpa using this
        have h3 := ih n (by omega) (pre ++ [a, b]) rest (acc + (a.val * 256 + b.val))
          (by simp only [List.length_cons] at hn; omega) (by omega)
        have hmod : (acc + (a.val * 256 + b.val)) % 2 ^ 32 = acc + (a.val * 256 + b.val) :=
          Nat.mod_eq_of_lt (by omega)
        have hk : n + 2 - (n + 2) % 2 = (n - n % 2) + 2 := by omega
        unfold CheckSum.loop
        simp only [h1, h2, bind, Except.bind, word_of_bytes, hmod]
        have e1 : pre ++ a :: b :: rest = (pre ++ [a, b]) ++ rest := by simp
        have e2 : (pre.length : Int) + 1 + 1 = ((pre ++ [a, b]).length : Int) := by
          simp; omega
        rw [e1, e2, h3, hk]
        simp only [List.take_succ_cons, specWords, List.sum_cons, List.length_append,
          List.length_cons, List.length_nil, Nat.add_mod_right]
        congr 3
        · omega
        · omega

theorem fold_eq (s : Nat) (hs : s < 2 ^ 31) :
    ((s >>> 16) + (s &&& 0x0000ffff)) % 2 ^ 32 = s / 65536 + s % 65536 ∧
      s / 65536 + s % 65536 < 2 ^ 32 ∧
      (if (s / 65536 + s % 65536) &&& 0xffff0000 ≠ 0 then
          (((s / 65536 + s % 65536) >>> 16) + ((s / 65536 + s % 65536) &&& 0x0000ffff)) % 2 ^ 32
        else s / 65536 + s % 65536) =
        (if s = 0 then 0 else (s - 1) % 65535 + 1) := by
  have hlt : s / 65536 + s % 65536 < 2 ^ 32 := by omega
  refine ⟨by rw [shr16, and_low16, Nat.mod_eq_of_lt hlt], hlt, ?_⟩
  by_cases h : 65536 ≤ s / 65536 + s % 65536
  · rw [if_pos ((and_high16_ne_zero _ hlt).2 h), shr16, and_low16, Nat.mod_eq_of_lt (by omega)]
    split <;> omega
  · rw [if_neg (fun hh => h ((and_high16_ne_zero _ hlt).1 hh))]
    split <;> omega

end simssl

/-! ## The value of `CheckSum` -/

namespace simssl

theorem specWords_append (xs ys : List Byte) (h : xs.length % 2 = 0) :
    specWords (xs ++ ys) = specWords xs ++ specWords ys := by
  induction xs using specWords.induct with
  | case1 => simp [specWords]
  | case2 a => simp at h
  | case3 a b rest ih =>
    simp only [List.length_cons] at h
    show specWords (a :: b :: (rest ++ ys)) = _
    simp only [specWords, List.cons_append, ih (by omega)]

theorem sum_specWords_take_succ (l : List Byte) (k : Nat) (hk : k % 2 = 0) (hl : k < l.length) :
    (specWords (l.take (k + 1))).sum = (specWords (l.take k)).sum + (l.getD k 0).val * 256 := by
  have h1 : l.take (k + 1) = l.take k ++ [l.getD k 0] := by
    rw [List.take_succ, List.getD_eq_getElem?_getD, List.getElem?_eq_getElem hl]
    rfl
  rw [h1, specWords_append _ _ (by rw [List.length_take]; omega)]
  simp [specWords]

theorem CheckSum_eq (buffer : List Byte) (n : Nat) (hn : n ≤ buffer.length) (h16 : n < 65536) :
    CheckSum buffer n =
      .ok ((if (specWords (buffer.take n)).sum = 0 then 0
        else ((specWords (buffer.take n)).sum - 1) % 65535 + 1) ^^^ 0xffff) := by
  have hloop := CheckSum_loop_spec n [] buffer 0 hn (by omega)
  simp only [List.nil_append, List.length_nil, Nat.cast_zero, Nat.zero_add] at hloop
  have hbound := sum_specWords_le (buffer.take n)
  rw [List.length_take, Nat.min_eq_left hn] at hbound
  have hS : (specWords (buffer.take n)).sum < 2 ^ 31 := by omega
  obtain ⟨f1, -, f2⟩ := fold_eq _ hS
  have hres : (if (specWords (buffer.take n)).sum = 0 then 0
      else ((specWords (buffer.take n)).sum - 1) % 65535 + 1) % 2 ^ 16 =
      (if (specWords (buffer.take n)).sum = 0 then 0
      else ((specWords (buffer.take n)).sum - 1) % 65535 + 1) := by
    split <;> omega
  by_cases hodd : n % 2 = 1
  · have hidx : index buffer ((n - 1 : Nat) : Int) = .ok (buffer.getD (n - 1) 0) :=
      index_natCast _ _ (by omega)
    have hsum := sum_specWords_take_succ buffer (n - 1) (by omega) (by omega)
    rw [show n - 1 + 1 = n by omega] at hsum
    rw [hodd] at hloop
    unfold CheckSum
    rw [hloop]
    simp only [bind, Except.bind, show (1 : Nat) > 0 by omega, if_true, hidx, word_of_byte, pure,
      Except.pure, ← hsum]
    rw [Nat.mod_eq_of_lt (show (specWords (buffer.take n)).sum < 2 ^ 32 by omega), f1, f2, hres]
  · have hz : n % 2 = 0 := by omega
    rw [hz, Nat.sub_zero] at hloop
    unfold CheckSum
    rw [hloop]
    simp only [bind, Except.bind, show ¬ ((0 : Nat) > 0) by omega, if_false, pure, Except.pure]
    rw [f1, f2, hres]

end simssl

/-! ## Encryption round trip -/

namespace simssl

open aes

theorem getD_padded (p : List Byte) (j : Nat) (h1 : p.length ≤ j)
    (h2 : j < p.length + (16 - p.length % 16)) :
    (p ++ List.replicate (16 - p.length % 16) (Fin.ofNat (16 - p.length % 16) : Byte)).getD j 0 =
      Fin.ofNat (16 - p.length % 16) := by
  rw [List.getD_eq_getElem?_getD, List.getElem?_append_right h1,
    List.getElem?_replicate_of_lt (by omega)]
  rfl

theorem val_ofNat_pad (n : Nat) : ((Fin.ofNat (16 - n % 16) : Byte)).val = 16 - n % 16 := by
  show (16 - n % 16) % 256 = _
  omega

/-- C1: for every plaintext `p` (the empty one and those of a length that is a
multiple of 16 included) and every 16-byte key `k`, `AesEncrypt(p, k)` returns
a ciphertext without error and `AesDecrypt` of that ciphertext under `k`
returns, without error, exactly the bytes of `p`. -/
theorem AesDecrypt_AesEncrypt (p key : List Byte) (hk : key.length = 16) :
    ∃ c s, AesEncrypt p key = .ok c ∧ AesDecrypt c key = .ok s ∧ s.bytes = p := by
  have hk3 : key.length = 16 ∨ key.length = 24 ∨ key.length = 32 := Or.inl hk
  have hc := AesEncrypt_eq p key hk3
  generalize hcd : encryptBlocks ⟨roundKeys key⟩ (p.length / 16 + 1) (key.take 16)
      (p ++ List.replicate (16 - p.length % 16) (Fin.ofNat (16 - p.length % 16))) = c at hc
  have hclen : c.length = 16 * (p.length / 16 + 1) := by rw [← hcd, length_encryptBlocks]
  have hdiv : c.length / 16 = p.length / 16 + 1 := by omega
  have hne : c ≠ [] := by
    intro h; rw [h] at hclen; simp at hclen
  obtain ⟨len, hdec, -, hsmall⟩ := AesDecrypt_spec c key hk3 (by omega) hne
  have hd : decryptBlocks ⟨roundKeys key⟩ (c.length / 16) (key.take 16) c =
      p ++ List.replicate (16 - p.length % 16) (Fin.ofNat (16 - p.length % 16)) := by
    rw [hdiv, ← hcd]
    exact decryptBlocks_encryptBlocks _ _ _ _ (length_take_key key hk3) (length_padded p)
  rw [hd] at hdec hsmall
  have hlast : ((p ++ List.replicate (16 - p.length % 16)
      (Fin.ofNat (16 - p.length % 16) : Byte)).getD (c.length - 1) 0).val = 16 - p.length % 16 := by
    rw [getD_padded p _ (by omega) (by omega), val_ofNat_pad]
  rw [hlast] at hsmall
  have hlen := (hsmall (by omega)).1 (fun j h1 h2 => by
    rw [getD_padded p j (by omega) (by omega), val_ofNat_pad])
  refine ⟨c, _, hc, hdec, ?_⟩
  simp only [Slice.bytes, hlen]
  rw [show c.length - (16 - p.length % 16) = p.length by omega]
  simp

theorem AesDecrypt_AesEncrypt_witness :
    ([0x00, 0x01, 0x02, 0x03, 0x04, 0x05, 0x06, 0x07, 0x08, 0x09, 0x0a, 0x0b, 0x0c, 0x0d, 0x0e,
        0x0f] : List Byte).length = 16 ∧
      ∃ c s,
        AesEncrypt [0x68, 0x65, 0x6c, 0x6c, 0x6f]
            [0x00, 0x01, 0x02, 0x03, 0x04, 0x05, 0x06, 0x07, 0x08, 0x09, 0x0a, 0x0b, 0x0c, 0x0d,
              0x0e, 0x0f] = .ok c ∧
          AesDecrypt c
              [0x00, 0x01, 0x02, 0x03, 0x04, 0x05, 0x06, 0x07, 0x08, 0x09, 0x0a, 0x0b, 0x0c, 0x0d,
                0x0e, 0x0f] = .ok s ∧
            s.bytes = [0x68, 0x65, 0x6c, 0x6c, 0x6f] :=
  ⟨rfl, AesDecrypt_AesEncrypt _ _ rfl⟩

end simssl

/-! ## Checksum contract -/

namespace simssl

theorem sum_specWords_set (l : List Byte) : ∀ (off : Nat) (x y : Byte), off % 2 = 0 →
    off + 2 ≤ l.length →
    (specWords ((l.set off x).set (off + 1) y)).sum +
        ((l.getD off 0).val * 256 + (l.getD (off + 1) 0).val) =
      (specWords l).sum + (x.val * 256 + y.val) := by
  induction l using specWords.induct with
  | case1 => intro off x y _ h; simp at h
  | case2 a => intro off x y _ h; simp at h
  | case3 a b rest ih =>
    intro off x y hoff h
    match off, hoff, h with
    | 0, _, _ => simp [specWords]; omega
    | 1, hoff, _ => simp at hoff
    | off + 2, hoff, h =>
      have := ih off x y (by omega) (by simp only [List.length_cons] at h; omega)
      simp only [List.set_cons_succ, specWords, List.sum_cons, List.getD_cons_succ] at this ⊢
      omega

theorem fold_unwrapped (s : Nat) (hs : s < 2 ^ 31) :
    s >>> 16 + (s &&& 0x0000ffff) < 2 ^ 32 ∧
      (if (s >>> 16 + (s &&& 0x0000ffff)) &&& 0xffff0000 ≠ 0 then
          (s >>> 16 + (s &&& 0x0000ffff)) >>> 16 + ((s >>> 16 + (s &&& 0x0000ffff)) &&& 0x0000ffff)
        else s >>> 16 + (s &&& 0x0000ffff)) =
        (if s = 0 then 0 else (s - 1) % 65535 + 1) := by
  simp only [shr16, and_low16]
  have hlt : s / 65536 + s % 65536 < 2 ^ 32 := by omega
  refine ⟨hlt, ?_⟩
  by_cases h : 65536 ≤ s / 65536 + s % 65536
  · rw [if_pos ((and_high16_ne_zero _ hlt).2 h)]
    split <;> omega
  · rw [if_neg (fun hh => h ((and_high16_ne_zero _ hlt).1 hh))]
    split <;> omega

/-- C9: for every byte buffer and every length `n <= len(buffer)` (a `uint16`),
`CheckSum(buffer, n)` returns the bitwise 16-bit complement of the
ones'-complement sum of the first `n` bytes read as big-endian 16-bit words, a
trailing odd byte being the high byte of a word with zero low byte; the loop
leaves in the 32-bit accumulator the true sum of the words it read, the sum
of all words is below `2^32`, and after the one or two folds the value is
below `2^16` and is that ones'-complement sum. -/
theorem CheckSum_spec (buffer : List Byte) (n : Nat) (hn : n ≤ buffer.length) (h16 : n < 65536) :
    CheckSum buffer n = .ok (onesSum (specWords (buffer.take n)) ^^^ 0xffff) ∧
      CheckSum.loop buffer n 0 0 =
        .ok (n % 2, ((n - n % 2 : Nat) : Int), (specWords (buffer.take (n - n % 2))).sum) ∧
      (specWords (buffer.take n)).sum < 2 ^ 32 ∧
      (specWords (buffer.take n)).sum >>> 16 + ((specWords (buffer.take n)).sum &&& 0x0000ffff) <
        2 ^ 32 ∧
      (if ((specWords (buffer.take n)).sum >>> 16 +
            ((specWords (buffer.take n)).sum &&& 0x0000ffff)) &&& 0xffff0000 ≠ 0 then
          ((specWords (buffer.take n)).sum >>> 16 +
              ((specWords (buffer.take n)).sum &&& 0x0000ffff)) >>> 16 +
            (((specWords (buffer.take n)).sum >>> 16 +
              ((specWords (buffer.take n)).sum &&& 0x0000ffff)) &&& 0x0000ffff)
        else
          (specWords (buffer.take n)).sum >>> 16 +
            ((specWords (buffer.take n)).sum &&& 0x0000ffff)) =
        onesSum (specWords (buffer.take n)) ∧
      onesSum (specWords (buffer.take n)) < 2 ^ 16 := by
  have hloop := CheckSum_loop_spec n [] buffer 0 hn (by omega)
  simp only [List.nil_append, List.length_nil, Nat.cast_zero, Nat.zero_add] at hloop
  have hbound := sum_specWords_le (buffer.take n)
  rw [List.length_take, Nat.min_eq_left hn] at hbound
  have hS : (specWords (buffer.take n)).sum < 2 ^ 31 := by omega
  have hones := onesSum_eq _ (specWords_le (buffer.take n))
  obtain ⟨hf1, hf2⟩ := fold_unwrapped _ hS
  refine ⟨by rw [CheckSum_eq buffer n hn h16, hones], hloop, by omega, hf1, by rw [hones, hf2], ?_⟩
  rw [hones]
  split <;> omega

theorem CheckSum_spec_witness :
    5 ≤ ([0x45, 0x00, 0x00, 0x73, 0xff, 0x00] : List Byte).length ∧ 5 < 65536 ∧
      CheckSum [0x45, 0x00, 0x00, 0x73, 0xff, 0x00] 5 =
        .ok (onesSum (specWords (([0x45, 0x00, 0x00, 0x73, 0xff, 0x00] : List Byte).take 5)) ^^^
          0xffff) :=
  ⟨by decide, by decide, (CheckSum_spec _ 5 (by decide) (by decide)).1⟩

/-- C2: for every even-length byte buffer `b` of at most 65535 bytes with a
zeroed 16-bit field at an even offset `off`, `CheckSum(b, len b)` returns a
value `c`, and once `c` is written big-endian into the field the checksum of
the whole buffer is 0. -/
theorem CheckSum_verifies (b : List Byte) (off : Nat) (heven : b.length % 2 = 0)
    (hlen : b.length ≤ 65535) (hoff : off % 2 = 0) (hfield : off + 2 ≤ b.length)
    (hz0 : b.getD off 0 = 0) (hz1 : b.getD (off + 1) 0 = 0) :
    ∃ c, CheckSum b b.length = .ok c ∧
      CheckSum ((b.set off (Fin.ofNat (c >>> 8))).set (off + 1) (Fin.ofNat c)) b.length =
        .ok 0 := by
  have hc := CheckSum_eq b b.length (Nat.le_refl _) (by omega)
  rw [List.take_length] at hc
  have hbound := sum_specWords_le b
  generalize hS : (specWords b).sum = S at hc hbound
  have hR : (if S = 0 then 0 else (S - 1) % 65535 + 1) < 65536 := by split <;> omega
  rw [xor_ffff _ hR] at hc
  generalize hcv : 65535 - (if S = 0 then 0 else (S - 1) % 65535 + 1) = c at hc
  have hc16 : c < 65536 := by omega
  refine ⟨c, hc, ?_⟩
  have hset := sum_specWords_set b off (Fin.ofNat (c >>> 8)) (Fin.ofNat c) hoff hfield
  have hhi : ((Fin.ofNat (c >>> 8) : Byte)).val = c / 256 := by
    show (c >>> 8) % 256 = _
    rw [Nat.shiftRight_eq_div_pow]
    omega
  have hlo : ((Fin.ofNat c : Byte)).val = c % 256 := rfl
  rw [hz0, hz1, hhi, hlo, hS] at hset
  have hlen2 : ((b.set off (Fin.ofNat (c >>> 8))).set (off + 1) (Fin.ofNat c)).length =
      b.length := by simp
  have h2 := CheckSum_eq ((b.set off (Fin.ofNat (c >>> 8))).set (off + 1) (Fin.ofNat c)) b.length
    (by omega) (by omega)
  rw [← hlen2, List.take_length, hlen2] at h2
  rw [h2]
  generalize (specWords ((b.set off (Fin.ofNat (c >>> 8))).set (off + 1) (Fin.ofNat c))).sum = S2
    at hset
  have hzero : ((0 : Byte)).val = 0 := rfl
  rw [hzero] at hset
  have hfin : (if S2 = 0 then 0 else (S2 - 1) % 65535 + 1) = 65535 := by
    split at hcv <;> split <;> omega
  rw [hfin]
  rfl

theorem CheckSum_verifies_witness :
    ([0x01, 0x01, 0x00, 0x70, 0x01, 0x02, 0x00, 0x00] : List Byte).length % 2 = 0 ∧
      ([0x01, 0x01, 0x00, 0x70, 0x01, 0x02, 0x00, 0x00] : List Byte).length ≤ 65535 ∧
      6 % 2 = 0 ∧ 6 + 2 ≤ ([0x01, 0x01, 0x00, 0x70, 0x01, 0x02, 0x00, 0x00] : List Byte).length ∧
      ([0x01, 0x01, 0x00, 0x70, 0x01, 0x02, 0x00, 0x00] : List Byte).getD 6 0 = 0 ∧
      ([0x01, 0x01, 0x00, 0x70, 0x01, 0x02, 0x00, 0x00] : List Byte).getD (6 + 1) 0 = 0 ∧
      ∃ c, CheckSum [0x01, 0x01, 0x00, 0x70, 0x01, 0x02, 0x00, 0x00] 8 = .ok c ∧
        CheckSum
            ((([0x01, 0x01, 0x00, 0x70, 0x01, 0x02, 0x00, 0x00] : List Byte).set 6
              (Fin.ofNat (c >>> 8))).set (6 + 1) (Fin.ofNat c)) 8 = .ok 0 :=
  ⟨by decide, by decide, by decide, by decide, by decide, by decide,
    CheckSum_verifies [0x01, 0x01, 0x00, 0x70, 0x01, 0x02, 0x00, 0x00] 6 (by decide) (by decide)
      (by decide) (by decide) (by decide) (by decide)⟩

end simssl

/-! ## Handshake validation -/

namespace simssl

open aes

/-- C3: for every client packet `A` and every server identity `sid`,
`GenerateServerHello(A.ClientID, sid, A.RandomInit, A.EncryptKey,
A.ExpirationTime)` returns a packet `B` without error, and
`CheckKey(A, B)` is `true`. -/
theorem CheckKey_GenerateServerHello (w : World) (A : SimSsl) (sid : List Byte) :
    ∃ B, (GenerateServerHello w A.ClientID sid A.RandomInit A.EncryptKey A.ExpirationTime).1 =
        .ok B ∧ CheckKey A B = .ok true := by
  refine ⟨_, by rw [GenerateServerHello_eq], ?_⟩
  rw [CheckKey_eq]
  simp

/-- C4, as stated, fails: for `exampleClientHello` and `exampleServerHello`
`CheckKey` returns `true`, while the byte sequence `AesDecrypt` returns has
had its last byte stripped as padding and so differs from the 32-byte
`RandomInit` of the remote packet. -/
theorem CheckKey_not_iff_AesDecrypt_bytes :
    ¬ (CheckKey exampleClientHello exampleServerHello = .ok true ↔
      exampleClientHello.ClientID = exampleServerHello.ClientID ∧
        exampleClientHello.ExpirationTime = exampleServerHello.ExpirationTime ∧
        ∃ s, AesDecrypt exampleClientHello.RandomInit.val exampleClientHello.EncryptKey.val =
            .ok s ∧ s.bytes = exampleServerHello.RandomInit.val) := by
  have h1 : CheckKey exampleClientHello exampleServerHello = .ok true := by decide!
  have h2 : AesDecrypt exampleClientHello.RandomInit.val exampleClientHello.EncryptKey.val =
      .ok ⟨exampleNonce.val, 31⟩ := by decide!
  intro h
  obtain ⟨-, -, s, hs, hb⟩ := h.1 h1
  rw [h2] at hs
  cases hs
  exact absurd hb (by decide)

/-- C4, amended: `CheckKey(local, remote)` returns `true` if and only if the
two `ClientID`s are equal, the two `ExpirationTime`s are equal, and the 32
bytes of the buffer into which `AesDecrypt(local.RandomInit,
local.EncryptKey)` decrypted (the backing array of its result, bytes cut off
as padding included) equal `remote.RandomInit`; otherwise it returns `false`. -/
theorem CheckKey_iff (A B : SimSsl) :
    (CheckKey A B = .ok true ↔
      A.ClientID = B.ClientID ∧ A.ExpirationTime = B.ExpirationTime ∧
        ∃ s, AesDecrypt A.RandomInit.val A.EncryptKey.val = .ok s ∧
          s.array = B.RandomInit.val) ∧
      (CheckKey A B = .ok true ∨ CheckKey A B = .ok false) := by
  obtain ⟨len, h⟩ := AesDecrypt_array A.RandomInit A.EncryptKey
  rw [CheckKey_eq]
  constructor
  · constructor
    · intro hd
      have := of_decide_eq_true (Except.ok.inj hd)
      exact ⟨this.1, this.2.1, _, h, this.2.2⟩
    · rintro ⟨h1, h2, s, hs, hb⟩
      rw [h] at hs
      cases hs
      simp only [h1, h2, true_and, decide_eq_true_eq, Except.ok.injEq]
      exact hb
  · by_cases hc : A.ClientID = B.ClientID ∧ A.ExpirationTime = B.ExpirationTime ∧
        decryptBlocks ⟨roundKeys A.EncryptKey.val⟩ 2 (A.EncryptKey.val.take 16)
          A.RandomInit.val = B.RandomInit.val
    · left; simp [hc]
    · right; simp [hc]

end simssl

/-! ## Mutation, padding, key sizes and the nonce echo -/

namespace simssl

open aes

theorem set_ne_self (l : List Byte) (i : Nat) (v : Byte) (hi : i < l.length)
    (hv : v ≠ l.getD i 0) : l.set i v ≠ l := by
  intro h
  have h2 : (l.set i v).getD i 0 = v := by
    rw [List.getD_eq_getElem?_getD, List.getElem?_set_self hi]
    rfl
  rw [h] at h2
  exact hv h2.symm

/-- C5: for every pair of packets `A`, `B` with `CheckKey(A, B) = true`, the
packet that differs from `B` only in byte `i` of `RandomInit`, which holds a
different value `v`, is rejected: `CheckKey` returns `false`. -/
theorem CheckKey_mutated_RandomInit (A B : SimSsl) (i : Nat) (v : Byte) (hi : i < 32)
    (hv : v ≠ B.RandomInit.val.getD i 0) (h : CheckKey A B = .ok true) :
    CheckKey A { B with RandomInit := B.RandomInit.set i v } = .ok false := by
  rw [CheckKey_eq] at h ⊢
  have hd := of_decide_eq_true (Except.ok.inj h)
  have hne : B.RandomInit.val.set i v ≠ B.RandomInit.val :=
    set_ne_self _ i v (by rw [B.RandomInit.property]; exact hi) hv
  have : ¬ (decryptBlocks ⟨roundKeys A.EncryptKey.val⟩ 2 (A.EncryptKey.val.take 16)
      A.RandomInit.val = (B.RandomInit.set i v).val) := by
    rw [hd.2.2]
    exact fun e => hne e.symm
  simp [this]

theorem CheckKey_mutated_RandomInit_witness :
    1 < 32 ∧ (0x00 : Byte) ≠ exampleServerHello.RandomInit.val.getD 1 0 ∧
      CheckKey exampleClientHello exampleServerHello = .ok true ∧
      CheckKey exampleClientHello
        { exampleServerHello with RandomInit := exampleServerHello.RandomInit.set 1 0x00 } =
        .ok false :=
  ⟨by decide, by decide, by decide!,
    CheckKey_mutated_RandomInit _ _ 1 0x00 (by decide) (by decide) (by decide!)⟩

/-- C6 fails on the code: the ciphertext below decrypts under `exampleKey` to
thirty-one bytes `41` followed by `03`, so the candidate pad length is 3 and
the last three bytes `41 41 03` are not all 3; `AesDecrypt` nevertheless cuts
three bytes off and returns a slice of length 29, because its check loop
`for i := len - paddingNum; i < paddingNum; i++` runs no iteration here. -/
theorem AesDecrypt_strips_unchecked_padding :
    AesDecrypt
        [0x26, 0x5c, 0x6c, 0x25, 0x48, 0x55, 0x58, 0x38, 0xc5, 0xfa, 0xb3, 0xb6, 0x88, 0x78, 0x03,
          0xc8, 0x60, 0x81, 0x42, 0x15, 0x91, 0xaf, 0x54, 0x38, 0xaa, 0x34, 0x31, 0x13, 0x57, 0x5a,
          0x72, 0x79]
        exampleKey.val =
      .ok ⟨List.replicate 31 0x41 ++ [0x03], 29⟩ := by
  decide!

/-- C7, as stated, fails: a 24-byte key is not rejected; `AesEncrypt` of the
empty plaintext under twenty-four zero bytes returns a ciphertext block. -/
theorem AesEncrypt_accepts_24_byte_key :
    (List.replicate 24 (0 : Byte)).length ≠ 16 ∧
      AesEncrypt [] (List.replicate 24 0) =
        .ok [0x02, 0xbb, 0x29, 0x25, 0x27, 0xe7, 0x26, 0xfd, 0x51, 0xeb, 0x29, 0x89, 0x4d, 0x6f,
          0x0a, 0xad] := by
  constructor
  · decide
  · decide!

theorem AesDecrypt_panic (crypted key : List Byte)
    (hk : key.length = 16 ∨ key.length = 24 ∨ key.length = 32)
    (hbad : crypted.length % 16 ≠ 0 ∨ crypted = []) :
    AesDecrypt crypted key = .error .Panic := by
  have hsl := sliceTo_key key ⟨roundKeys key⟩ hk
  simp only [Block.BlockSize] at hsl
  unfold AesDecrypt
  simp only [NewCipher_ok key hk, bind, Except.bind, Block.BlockSize, hsl, NewCBCDecrypter,
    length_take_key key hk, cbcDecrypter.CryptBlocks, pure, Except.pure]
  by_cases hlen : crypted.length % 16 = 0
  · have hnil : crypted = [] := by
      rcases hbad with h | h
      · exact absurd hlen h
      · exact h
    subst hnil
    rfl
  · simp [hlen]

/-- C7, amended: `AesEncrypt` and `AesDecrypt` return an error if and only if
the key is not 16, 24 or 32 bytes long; a key of 24 or 32 bytes is accepted,
and a 16-byte key never makes either of them return an error. -/
theorem Aes_error_iff_key_size (input key : List Byte) :
    ((∃ e, AesEncrypt input key = .error (.KeySizeError e)) ↔
        ¬ (key.length = 16 ∨ key.length = 24 ∨ key.length = 32)) ∧
      ((∃ e, AesDecrypt input key = .error (.KeySizeError e)) ↔
        ¬ (key.length = 16 ∨ key.length = 24 ∨ key.length = 32)) := by
  by_cases hk : key.length = 16 ∨ key.length = 24 ∨ key.length = 32
  · constructor
    · rw [AesEncrypt_eq input key hk]
      simp [hk]
    · by_cases hbad : input.length % 16 ≠ 0 ∨ input = []
      · rw [AesDecrypt_panic input key hk hbad]
        simp [hk]
      · obtain ⟨len, h, -⟩ := AesDecrypt_spec input key hk (by omega) (fun e => hbad (Or.inr e))
        rw [h]
        simp [hk]
  · have he : AesEncrypt input key = .error (.KeySizeError key.length) := by
      unfold AesEncrypt
      simp only [NewCipher_error key hk, bind, Except.bind]
    have hd : AesDecrypt input key = .error (.KeySizeError key.length) := by
      unfold AesDecrypt
      simp only [NewCipher_error key hk, bind, Except.bind]
    exact ⟨⟨fun _ => hk, fun _ => ⟨_, he⟩⟩, ⟨fun _ => hk, fun _ => ⟨_, hd⟩⟩⟩

/-- C8: for every 32-byte nonce `N` and every 16-byte key `K` (whatever the
last byte of `N`), `AesEncrypt(N, K)` returns a ciphertext whose first 32
bytes `C` can be taken, and `GenerateServerHello(cid, sid, C, K, t)` returns
a packet whose `RandomInit` equals `N` in all 32 bytes. -/
theorem GenerateServerHello_recovers_nonce (w : World) (cid : ByteArr 32) (sid : List Byte)
    (N : ByteArr 32) (K : ByteArr 16) (t : Int) :
    ∃ c first B, AesEncrypt N.val K.val = .ok c ∧ sliceTo c 32 = .ok first ∧
      (GenerateServerHello w cid sid (N.copy first) K t).1 = .ok B ∧ B.RandomInit = N := by
  have hk : K.val.length = 16 ∨ K.val.length = 24 ∨ K.val.length = 32 := Or.inl K.property
  have hN := N.property
  have hc := AesEncrypt_eq N.val K.val hk
  rw [hN] at hc
  generalize hcd : encryptBlocks ⟨roundKeys K.val⟩ (32 / 16 + 1) (K.val.take 16)
      (N.val ++ List.replicate (16 - 32 % 16) (Fin.ofNat (16 - 32 % 16))) = c at hc
  have hclen : c.length = 48 := by rw [← hcd, length_encryptBlocks]
  have hfirst : sliceTo c 32 = .ok (c.take 32) := by
    simp [sliceTo, hclen]
  have hcopy : N.copy (c.take 32) = ⟨c.take 32, by simp [hclen]⟩ :=
    ByteArr.copy_full _ _ _
  refine ⟨c, c.take 32, _, hc, hfirst, by rw [GenerateServerHello_eq], ?_⟩
  apply Subtype.ext
  simp only [hcopy]
  rw [← hcd]
  have := decryptBlocks_encryptBlocks_take ⟨roundKeys K.val⟩ 2 3 (K.val.take 16)
    (N.val ++ List.replicate (16 - 32 % 16) (Fin.ofNat (16 - 32 % 16)))
    (by omega) (length_take_key K.val hk) (by simp [hN])
  rw [show 16 * 2 = 32 from rfl] at this
  rw [show 32 / 16 + 1 = 3 from rfl, this, List.take_append_of_le_length (by omega),
    List.take_of_length_le (by omega)]

/-- C10: for every plaintext `p`, `PKCS5Padding(p, 16)` is `p` followed by `N`
bytes of value `N`, `N = 16 - (len p mod 16)`; when `len p` is a multiple
of 16 these are sixteen bytes of value 16; and for a 16-byte key the
ciphertext `AesEncrypt(p, k)` returns has length `len p + N`. -/
theorem PKCS5Padding_spec (p key : List Byte) (hk : key.length = 16) :
    PKCS5Padding p 16 =
        .ok (p ++ List.replicate (16 - p.length % 16) (Fin.ofNat (16 - p.length % 16))) ∧
      (p.length % 16 = 0 → PKCS5Padding p 16 = .ok (p ++ List.replicate 16 16)) ∧
      ∃ c, AesEncrypt p key = .ok c ∧ c.length = p.length + (16 - p.length % 16) := by
  refine ⟨PKCS5Padding_sixteen p, fun h => ?_, ?_⟩
  · rw [PKCS5Padding_sixteen, h]
    rfl
  · refine ⟨_, AesEncrypt_eq p key (Or.inl hk), ?_⟩
    rw [length_encryptBlocks]
    omega

theorem PKCS5Padding_spec_witness :
    exampleKey.val.length = 16 ∧ exampleKey.val.length % 16 = 0 ∧
      (PKCS5Padding exampleKey.val 16 =
          .ok (exampleKey.val ++ List.replicate (16 - exampleKey.val.length % 16)
            (Fin.ofNat (16 - exampleKey.val.length % 16))) ∧
        (exampleKey.val.length % 16 = 0 →
          PKCS5Padding exampleKey.val 16 = .ok (exampleKey.val ++ List.replicate 16 16)) ∧
        ∃ c, AesEncrypt exampleKey.val exampleKey.val = .ok c ∧
          c.length = exampleKey.val.length + (16 - exampleKey.val.length % 16)) :=
  ⟨rfl, rfl, PKCS5Padding_spec exampleKey.val exampleKey.val rfl⟩

end simssl

/-! ## What the packet builders compute -/

namespace simssl

open aes

theorem length_encrypted_nonce (n : ByteArr 32) (k : ByteArr 16) :
    ((encryptBlocks ⟨roundKeys k.val⟩ 3 (k.val.take 16)
      (n.val ++ List.replicate 16 (16 : Byte))).take 32).length = 32 := by
  rw [List.length_take, length_encryptBlocks]
  rfl

theorem AesEncrypt_array (n : ByteArr 32) (k : ByteArr 16) :
    AesEncrypt n.val k.val =
      .ok (encryptBlocks ⟨roundKeys k.val⟩ 3 (k.val.take 16)
        (n.val ++ List.replicate 16 (16 : Byte))) := by
  have h := AesEncrypt_eq n.val k.val (Or.inl k.property)
  rw [n.property] at h
  exact h

theorem GenerateClientHello_eq (source : Int → Nat → Nat) (w : World) (cid : List Byte) :
    GenerateClientHello source w cid =
      (.ok
        { ContentType := 0x01
          Version := 0x01
          Length := 128
          Method := 0x01
          Mode := 0x02
          CheckSum := 0x00
          ClientID := sha256.Sum256 cid
          ServerID := sha256.Sum256 [0x75, 0x6e, 0x6b, 0x6e, 0x6f, 0x77, 0x6e]
          ExpirationTime := wrapInt64 (w.later + 60 * 60 * 24)
          RandomInit :=
            ⟨(encryptBlocks ⟨roundKeys (md5.Sum (strconv.FormatUint (source w.now 1 % 2 ^ 64)
                36)).val⟩ 3
              ((md5.Sum (strconv.FormatUint (source w.now 1 % 2 ^ 64) 36)).val.take 16)
              ((sha256.Sum256 (strconv.FormatUint (source w.now 0 % 2 ^ 64) 36)).val ++
                List.replicate 16 (16 : Byte))).take 32,
              length_encrypted_nonce _ _⟩
          EncryptKey := md5.Sum (strconv.FormatUint (source w.now 1 % 2 ^ 64) 36) },
        { rng := ⟨w.now, 2⟩, now := w.now, later := w.later }) := by
  unfold GenerateClientHello
  simp only [rand.Seed, rand.Uint64, AesEncrypt_array, bind, Except.bind, pure, Except.pure]
  have hl := length_encrypted_nonce
    (sha256.Sum256 (strconv.FormatUint (source w.now 0 % 2 ^ 64) 36))
    (md5.Sum (strconv.FormatUint (source w.now 1 % 2 ^ 64) 36))
  have hs : sliceTo (encryptBlocks ⟨roundKeys (md5.Sum (strconv.FormatUint
      (source w.now 1 % 2 ^ 64) 36)).val⟩ 3
      ((md5.Sum (strconv.FormatUint (source w.now 1 % 2 ^ 64) 36)).val.take 16)
      ((sha256.Sum256 (strconv.FormatUint (source w.now 0 % 2 ^ 64) 36)).val ++
        List.replicate 16 (16 : Byte))) 32 = .ok ((encryptBlocks ⟨roundKeys (md5.Sum
      (strconv.FormatUint (source w.now 1 % 2 ^ 64) 36)).val⟩ 3
      ((md5.Sum (strconv.FormatUint (source w.now 1 % 2 ^ 64) 36)).val.take 16)
      ((sha256.Sum256 (strconv.FormatUint (source w.now 0 % 2 ^ 64) 36)).val ++
        List.replicate 16 (16 : Byte))).take 32) := by
    simp [sliceTo, length_encryptBlocks]
  simp only [Nat.zero_add, hs, ByteArr.copy_full _ _ hl]

/-- The digest of the three bytes `abc` (RFC 1321 test suite). -/
theorem md5_example_vector :
    (md5.Sum [0x61, 0x62, 0x63]).val =
      [0x90, 0x01, 0x50, 0x98, 0x3c, 0xd2, 0x4f, 0xb0, 0xd6, 0x96, 0x3f, 0x7d, 0x28, 0xe1, 0x7f,
        0x72] := by
  decide!

/-- The largest `uint64` in base 36 is `3w5e11264sgsf`. -/
theorem FormatUint_example :
    strconv.FormatUint (2 ^ 64 - 1) 36 =
      [0x33, 0x77, 0x35, 0x65, 0x31, 0x31, 0x32, 0x36, 0x34, 0x73, 0x67, 0x73, 0x66] := by
  decide!

end simssl

/-! ## The fields the builders set -/

namespace simssl

open aes

theorem GenerateClientFailed_eq (w : World) (cid sid : List Byte) :
    GenerateClientFailed w cid sid =
      (.ok
        { ContentType := 0x03
          Version := 0x01
          Length := 72
          Method := 0x01
          Mode := 0x02
          CheckSum := 0x00
          ClientID := sha256.Sum256 cid
          ServerID := sha256.Sum256 sid
          ExpirationTime := 0
          RandomInit := ByteArr.zero 32
          EncryptKey := ByteArr.zero 16 }, { rng := ⟨w.now, 0⟩, now := w.now, later := w.later }) := rfl

theorem GenerateServerErase_eq (w : World) (cid : ByteArr 32) (sid : List Byte) :
    GenerateServerErase w cid sid =
      (.ok
        { ContentType := 0x04
          Version := 0x01
          Length := 72
          Method := 0x01
          Mode := 0x02
          CheckSum := 0x00
          ClientID := cid
          ServerID := sha256.Sum256 sid
          ExpirationTime := 0
          RandomInit := ByteArr.zero 32
          EncryptKey := ByteArr.zero 16 }, { rng := ⟨w.now, 0⟩, now := w.now, later := w.later }) := rfl

theorem wrapInt64_of_range (x : Int) (h1 : -2 ^ 63 ≤ x) (h2 : x < 2 ^ 63) : wrapInt64 x = x := by
  unfold wrapInt64
  omega

/-- C11: for every client identity `cid` and every clock reading `now` (the
`int64` that `time.Now().Unix()` returns where `ExpirationTime` is set, with
`now + 86400` not overflowing), the packet returned by
`GenerateClientHello(cid)` has `ClientID = SHA-256(cid)`,
`ServerID = SHA-256("unknown")` and `ExpirationTime = now + 86400`, whatever
the reading that seeded the generator. -/
theorem GenerateClientHello_fields (source : Int → Nat → Nat) (w : World) (cid : List Byte)
    (hlo : -2 ^ 63 ≤ w.later) (hhi : w.later + 86400 < 2 ^ 63) :
    ∃ P, (GenerateClientHello source w cid).1 = .ok P ∧
      P.ClientID = sha256.Sum256 cid ∧
      P.ServerID = sha256.Sum256 [0x75, 0x6e, 0x6b, 0x6e, 0x6f, 0x77, 0x6e] ∧
      P.ExpirationTime = w.later + 86400 := by
  rw [GenerateClientHello_eq]
  exact ⟨_, rfl, rfl, rfl, wrapInt64_of_range _ (by omega) (by omega)⟩

theorem GenerateClientHello_fields_witness :
    -2 ^ 63 ≤ (World.mk ⟨0, 0⟩ 1699999999 1700000000).later ∧
      (World.mk ⟨0, 0⟩ 1699999999 1700000000).later + 86400 < 2 ^ 63 ∧
      ∃ P, (GenerateClientHello (fun _ k => k) (World.mk ⟨0, 0⟩ 1699999999 1700000000)
          [0x64, 0x65, 0x76, 0x69, 0x63, 0x65, 0x2d, 0x34, 0x32]).1 = .ok P ∧
        P.ClientID = sha256.Sum256 [0x64, 0x65, 0x76, 0x69, 0x63, 0x65, 0x2d, 0x34, 0x32] ∧
        P.ServerID = sha256.Sum256 [0x75, 0x6e, 0x6b, 0x6e, 0x6f, 0x77, 0x6e] ∧
        P.ExpirationTime = (World.mk ⟨0, 0⟩ 1699999999 1700000000).later + 86400 :=
  ⟨by decide, by decide, GenerateClientHello_fields _ _ _ (by decide) (by decide)⟩

/-- C12: for all inputs `cid`, `sid`, `randomInit`, `encryptKey` and
`timestamp`, and whatever the clock and the generator state of the world, the
packet returned by `GenerateServerHello` has `ClientID = cid`,
`ServerID = SHA-256(sid)` and `ExpirationTime = timestamp`. -/
theorem GenerateServerHello_fields (w : World) (cid : ByteArr 32) (sid : List Byte)
    (randomInit : ByteArr 32) (encryptKey : ByteArr 16) (timestamp : Int) :
    ∃ B, (GenerateServerHello w cid sid randomInit encryptKey timestamp).1 = .ok B ∧
      B.ClientID = cid ∧ B.ServerID = sha256.Sum256 sid ∧ B.ExpirationTime = timestamp := by
  rw [GenerateServerHello_eq]
  exact ⟨_, rfl, rfl, rfl, rfl⟩

/-- C14, as stated, fails: the session key passed to `GenerateServerHello` can
appear in its output.  With `exampleKey` as key and, as `randomInit`, the CBC
encryption under that key of the key written twice, the packet returned has
an all-zero `EncryptKey` but its `RandomInit` is the key followed by the key. -/
theorem GenerateServerHello_output_contains_key :
    ∃ P, (GenerateServerHello (World.mk ⟨0, 0⟩ 0 0) (ByteArr.zero 32) []
        ⟨[0xc6, 0xa1, 0x3b, 0x37, 0x87, 0x8f, 0x5b, 0x82, 0x6f, 0x4f, 0x81, 0x62, 0xa1, 0xc8, 0xd8,
          0x79, 0xb5, 0x8a, 0x10, 0x64, 0xd8, 0xac, 0xa9, 0x9b, 0xd9, 0xb0, 0x40, 0x5b, 0x85, 0x45,
          0xf5, 0xbb], rfl⟩ exampleKey 0).1 = .ok P ∧
      P.EncryptKey = ByteArr.zero 16 ∧ P.RandomInit.val = exampleKey.val ++ exampleKey.val ∧
      exampleKey.val <:+: P.RandomInit.val := by
  rw [GenerateServerHello_eq]
  have h : decryptBlocks ⟨roundKeys exampleKey.val⟩ 2 (exampleKey.val.take 16)
      [0xc6, 0xa1, 0x3b, 0x37, 0x87, 0x8f, 0x5b, 0x82, 0x6f, 0x4f, 0x81, 0x62, 0xa1, 0xc8, 0xd8,
        0x79, 0xb5, 0x8a, 0x10, 0x64, 0xd8, 0xac, 0xa9, 0x9b, 0xd9, 0xb0, 0x40, 0x5b, 0x85, 0x45,
        0xf5, 0xbb] = exampleKey.val ++ exampleKey.val := by decide!
  refine ⟨_, rfl, rfl, h, ?_⟩
  show exampleKey.val <:+: decryptBlocks ⟨roundKeys exampleKey.val⟩ 2 (exampleKey.val.take 16)
    [0xc6, 0xa1, 0x3b, 0x37, 0x87, 0x8f, 0x5b, 0x82, 0x6f, 0x4f, 0x81, 0x62, 0xa1, 0xc8, 0xd8,
      0x79, 0xb5, 0x8a, 0x10, 0x64, 0xd8, 0xac, 0xa9, 0x9b, 0xd9, 0xb0, 0x40, 0x5b, 0x85, 0x45,
      0xf5, 0xbb]
  rw [h]
  exact ⟨[], exampleKey.val, rfl⟩

/-- C14, amended: for all inputs, the packets returned by
`GenerateServerHello`, `GenerateClientFailed` and `GenerateServerErase` have
an all-zero `EncryptKey` (the session key passed to `GenerateServerHello` is
never stored in that field), and those returned by `GenerateClientFailed` and
`GenerateServerErase` also have `ExpirationTime = 0` and an all-zero
`RandomInit`. -/
theorem builders_zero_fields (w : World) (cid sid : List Byte) (cid32 randomInit : ByteArr 32)
    (encryptKey : ByteArr 16) (timestamp : Int) :
    (∃ P, (GenerateServerHello w cid32 sid randomInit encryptKey timestamp).1 = .ok P ∧
        P.EncryptKey = ByteArr.zero 16) ∧
      (∃ P, (GenerateClientFailed w cid sid).1 = .ok P ∧ P.EncryptKey = ByteArr.zero 16 ∧
        P.ExpirationTime = 0 ∧ P.RandomInit = ByteArr.zero 32) ∧
      (∃ P, (GenerateServerErase w cid32 sid).1 = .ok P ∧ P.EncryptKey = ByteArr.zero 16 ∧
        P.ExpirationTime = 0 ∧ P.RandomInit = ByteArr.zero 32) := by
  rw [GenerateServerHello_eq, GenerateClientFailed_eq, GenerateServerErase_eq]
  exact ⟨⟨_, rfl, rfl⟩, ⟨_, rfl, rfl, rfl, rfl⟩, ⟨_, rfl, rfl, rfl, rfl⟩⟩

/-- C15, as stated, fails: in a world whose generator was seeded with 2 and has
given five values, at clock reading 1, `GenerateClientFailed` leaves the
generator freshly seeded with 1; and `GenerateClientHello` of the same
identity returns different packets at the clock readings 0 and 1. -/
theorem builders_reseed_generator :
    (GenerateClientFailed (World.mk ⟨2, 5⟩ 1 1) [] []).2.rng ≠ (World.mk ⟨2, 5⟩ 1 1).rng ∧
      (GenerateClientHello (fun _ _ => 0) (World.mk ⟨0, 0⟩ 0 0) []).1 ≠
        (GenerateClientHello (fun _ _ => 0) (World.mk ⟨0, 0⟩ 1 1) []).1 := by
  constructor
  · rw [GenerateClientFailed_eq]
    decide
  · rw [GenerateClientHello_eq, GenerateClientHello_eq]
    intro h
    have := congrArg SimSsl.ExpirationTime (Except.ok.inj h)
    revert this
    decide

/-- C15, amended: each of the four builders reseeds the process-wide random
generator with the clock reading it takes first; whatever its state before
the call, `GenerateServerHello`, `GenerateClientFailed` and
`GenerateServerErase` leave it freshly seeded and `GenerateClientHello`
leaves it two draws further.  The results of `GenerateServerHello`,
`GenerateClientFailed` and `GenerateServerErase` depend only on their
arguments; the result of `GenerateClientHello` depends only on its argument
and its two clock readings, the one that seeds the generator and the one
that sets `ExpirationTime`. -/
theorem builders_effect (source : Int → Nat → Nat) (w w2 : World) (cid sid : List Byte)
    (cid32 randomInit : ByteArr 32) (encryptKey : ByteArr 16) (timestamp : Int) :
    (GenerateClientHello source w cid).2.rng = ⟨w.now, 2⟩ ∧
      (GenerateServerHello w cid32 sid randomInit encryptKey timestamp).2.rng = ⟨w.now, 0⟩ ∧
      (GenerateClientFailed w cid sid).2.rng = ⟨w.now, 0⟩ ∧
      (GenerateServerErase w cid32 sid).2.rng = ⟨w.now, 0⟩ ∧
      (GenerateServerHello w cid32 sid randomInit encryptKey timestamp).1 =
        (GenerateServerHello w2 cid32 sid randomInit encryptKey timestamp).1 ∧
      (GenerateClientFailed w cid sid).1 = (GenerateClientFailed w2 cid sid).1 ∧
      (GenerateServerErase w cid32 sid).1 = (GenerateServerErase w2 cid32 sid).1 ∧
      (w.now = w2.now → w.later = w2.later →
        (GenerateClientHello source w cid).1 = (GenerateClientHello source w2 cid).1) := by
  simp only [GenerateClientHello_eq, GenerateServerHello_eq, GenerateClientFailed_eq,
    GenerateServerErase_eq, rand.Seed, true_and]
  intro h h2
  rw [h, h2]

theorem builders_effect_witness :
    (World.mk ⟨2, 5⟩ 7 8).now = (World.mk ⟨3, 0⟩ 7 8).now ∧
      (World.mk ⟨2, 5⟩ 7 8).later = (World.mk ⟨3, 0⟩ 7 8).later ∧
      (GenerateClientHello (fun _ k => k) (World.mk ⟨2, 5⟩ 7 8) [0x61]).1 =
        (GenerateClientHello (fun _ k => k) (World.mk ⟨3, 0⟩ 7 8) [0x61]).1 :=
  ⟨rfl, rfl, (builders_effect (fun _ k => k) (World.mk ⟨2, 5⟩ 7 8) (World.mk ⟨3, 0⟩ 7 8) [0x61] []
    (ByteArr.zero 32) (ByteArr.zero 32) (ByteArr.zero 16) 0).2.2.2.2.2.2.2 rfl rfl⟩

/-- The two clock readings of `GenerateClientHello` are both needed: two calls
that seed the generator in the same second, the second of them reading the
next second where `ExpirationTime` is set, return different packets. -/
theorem GenerateClientHello_second_reading :
    (GenerateClientHello (fun _ _ => 0) (World.mk ⟨0, 0⟩ 0 0) []).1 ≠
      (GenerateClientHello (fun _ _ => 0) (World.mk ⟨0, 0⟩ 0 1) []).1 := by
  rw [GenerateClientHello_eq, GenerateClientHello_eq]
  intro h
  have := congrArg SimSsl.ExpirationTime (Except.ok.inj h)
  revert this
  decide

/-- C16: for every client identity `cid` and server identity `sid`,
`GenerateClientFailed(cid, sid)` has `ClientID = SHA-256(cid)` and
`ServerID = SHA-256(sid)`; `GenerateServerErase(SHA-256(cid), sid)` carries
the same pair; the `ClientID` of `GenerateClientHello(cid)` and the
`ServerID` of `GenerateServerHello(_, sid, ...)` are the same values. -/
theorem abort_packets_correlate (source : Int → Nat → Nat) (w1 w2 w3 w4 : World)
    (cid sid : List Byte) (cid32 randomInit : ByteArr 32) (encryptKey : ByteArr 16)
    (timestamp : Int) :
    ∃ F E H S, (GenerateClientFailed w1 cid sid).1 = .ok F ∧
      F.ClientID = sha256.Sum256 cid ∧ F.ServerID = sha256.Sum256 sid ∧
      (GenerateServerErase w2 (sha256.Sum256 cid) sid).1 = .ok E ∧
      E.ClientID = F.ClientID ∧ E.ServerID = F.ServerID ∧
      (GenerateClientHello source w3 cid).1 = .ok H ∧ H.ClientID = F.ClientID ∧
      (GenerateServerHello w4 cid32 sid randomInit encryptKey timestamp).1 = .ok S ∧
      S.ServerID = F.ServerID := by
  rw [GenerateClientHello_eq, GenerateServerHello_eq, GenerateClientFailed_eq,
    GenerateServerErase_eq]
  exact ⟨_, _, _, _, rfl, rfl, rfl, rfl, rfl, rfl, rfl, rfl, rfl, rfl⟩

/-- C18: the nonce and the session key `GenerateClientHello` produces are a
function of the clock reading alone: for any two client identities and any
two prior generator states, two calls that read the same Unix second return
packets with the same `EncryptKey` and the same `RandomInit`. -/
theorem GenerateClientHello_key_of_clock (source : Int → Nat → Nat) (w1 w2 : World)
    (cid1 cid2 : List Byte) (h : w1.now = w2.now) :
    ∃ P1 P2, (GenerateClientHello source w1 cid1).1 = .ok P1 ∧
      (GenerateClientHello source w2 cid2).1 = .ok P2 ∧
      P1.EncryptKey = P2.EncryptKey ∧ P1.RandomInit = P2.RandomInit := by
  rw [GenerateClientHello_eq, GenerateClientHello_eq]
  refine ⟨_, _, rfl, rfl, ?_, ?_⟩
  · simp only [h]
  · simp only [h]

theorem GenerateClientHello_key_of_clock_witness :
    (World.mk ⟨2, 5⟩ 7 7).now = (World.mk ⟨3, 0⟩ 7 8).now ∧
      ∃ P1 P2, (GenerateClientHello (fun _ k => k) (World.mk ⟨2, 5⟩ 7 7) [0x61]).1 = .ok P1 ∧
        (GenerateClientHello (fun _ k => k) (World.mk ⟨3, 0⟩ 7 8) [0x62]).1 = .ok P2 ∧
        P1.EncryptKey = P2.EncryptKey ∧ P1.RandomInit = P2.RandomInit :=
  ⟨rfl, GenerateClientHello_key_of_clock _ _ _ _ _ rfl⟩

/-- C20: for all inputs, each of the four builders returns a packet and no
error or panic, and `CheckKey` returns a boolean: the keys are 16-byte
arrays, `AesEncrypt` of the 32-byte nonce gives 48 bytes of which the first 32
can be taken, and the result of `AesDecrypt` on a 32-byte array has capacity
32, so its first 32 bytes can be taken whatever its length. -/
theorem builders_never_fail (source : Int → Nat → Nat) (w : World) (cid sid : List Byte)
    (cid32 randomInit : ByteArr 32) (encryptKey : ByteArr 16) (timestamp : Int)
    (A B : SimSsl) :
    (∃ P, (GenerateClientHello source w cid).1 = .ok P) ∧
      (∃ P, (GenerateServerHello w cid32 sid randomInit encryptKey timestamp).1 = .ok P) ∧
      (∃ P, (GenerateClientFailed w cid sid).1 = .ok P) ∧
      (∃ P, (GenerateServerErase w cid32 sid).1 = .ok P) ∧
      (∃ b, CheckKey A B = .ok b) ∧
      encryptKey.val.length = 16 ∧
      (∃ c first, AesEncrypt randomInit.val encryptKey.val = .ok c ∧ c.length = 48 ∧
        sliceTo c 32 = .ok first ∧ first.length = 32) ∧
      (∃ s first, AesDecrypt randomInit.val encryptKey.val = .ok s ∧ s.cap = 32 ∧
        s.sliceTo 32 = .ok first ∧ first.bytes.length = 32) := by
  rw [GenerateClientHello_eq, GenerateServerHello_eq, GenerateClientFailed_eq,
    GenerateServerErase_eq, CheckKey_eq, AesEncrypt_array]
  obtain ⟨len, hd⟩ := AesDecrypt_array randomInit encryptKey
  have hl := length_decrypt32 randomInit encryptKey
  refine ⟨⟨_, rfl⟩, ⟨_, rfl⟩, ⟨_, rfl⟩, ⟨_, rfl⟩, ⟨_, rfl⟩, encryptKey.property,
    ⟨_, (encryptBlocks ⟨roundKeys encryptKey.val⟩ 3 (encryptKey.val.take 16)
      (randomInit.val ++ List.replicate 16 (16 : Byte))).take 32, rfl,
      length_encryptBlocks _ _ _ _, ?_, length_encrypted_nonce randomInit encryptKey⟩,
    ⟨_, ⟨_, 32⟩, hd, hl, sliceTo_decrypted _ len hl, ?_⟩⟩
  · simp [sliceTo, length_encryptBlocks]
  · simp [Slice.bytes, hl]

end simssl

/-! ## Safety of `AesDecrypt` and sensitivity of `CheckSum` -/

namespace simssl

open aes

/-- C17: for every 16-byte key and every ciphertext whose length is a positive
multiple of 16, `AesDecrypt` returns a slice without error or panic; the slice
is a prefix of the CBC-decrypted buffer and is at most 16 bytes shorter than
the ciphertext.  For an empty ciphertext, or one whose length is not a
multiple of 16, the call panics. -/
theorem AesDecrypt_safe (crypted key : List Byte) (hk : key.length = 16) :
    (crypted.length % 16 = 0 → crypted ≠ [] →
        ∃ s, AesDecrypt crypted key = .ok s ∧
          s.array = decryptBlocks ⟨roundKeys key⟩ (crypted.length / 16) (key.take 16) crypted ∧
          s.bytes <+: s.array ∧ crypted.length - 16 ≤ s.bytes.length ∧
          s.bytes.length ≤ crypted.length) ∧
      (crypted = [] ∨ crypted.length % 16 ≠ 0 → AesDecrypt crypted key = .error .Panic) := by
  have hk3 : key.length = 16 ∨ key.length = 24 ∨ key.length = 32 := Or.inl hk
  constructor
  · intro hlen hne
    obtain ⟨len, hdec, hbig, hsmall⟩ := AesDecrypt_spec crypted key hk3 hlen hne
    have hpos : 16 ≤ crypted.length := by
      cases crypted with
      | nil => exact absurd rfl hne
      | cons x xs => simp only [List.length_cons] at hlen ⊢; omega
    have hd : (decryptBlocks ⟨roundKeys key⟩ (crypted.length / 16) (key.take 16) crypted).length =
        crypted.length := by
      rw [length_decryptBlocks _ _ _ _ (length_take_key key hk3) (by omega)]; omega
    have hrange : crypted.length - 16 ≤ len ∧ len ≤ crypted.length := by
      by_cases hp : 16 < ((decryptBlocks ⟨roundKeys key⟩ (crypted.length / 16) (key.take 16)
          crypted).getD (crypted.length - 1) 0).val
      · have := hbig hp
        omega
      · by_cases hall : ∀ j, crypted.length - ((decryptBlocks ⟨roundKeys key⟩
            (crypted.length / 16) (key.take 16) crypted).getD (crypted.length - 1) 0).val ≤ j →
            j < ((decryptBlocks ⟨roundKeys key⟩ (crypted.length / 16) (key.take 16) crypted).getD
              (crypted.length - 1) 0).val →
            ((decryptBlocks ⟨roundKeys key⟩ (crypted.length / 16) (key.take 16) crypted).getD j
              0).val =
            ((decryptBlocks ⟨roundKeys key⟩ (crypted.length / 16) (key.take 16) crypted).getD
              (crypted.length - 1) 0).val
        · have := (hsmall (by omega)).1 hall
          omega
        · have := (hsmall (by omega)).2 hall
          omega
    refine ⟨_, hdec, rfl, List.take_prefix _ _, ?_, ?_⟩
    · simp only [Slice.bytes, List.length_take, hd]
      omega
    · simp only [Slice.bytes, List.length_take, hd]
      omega
  · intro hbad
    exact AesDecrypt_panic crypted key hk3 (by rcases hbad with h | h; exact Or.inr h; exact Or.inl h)

theorem AesDecrypt_safe_witness :
    exampleKey.val.length = 16 ∧ exampleClientHello.RandomInit.val.length % 16 = 0 ∧
      exampleClientHello.RandomInit.val ≠ [] ∧
      (∃ s, AesDecrypt exampleClientHello.RandomInit.val exampleKey.val = .ok s ∧
        s.array = decryptBlocks ⟨roundKeys exampleKey.val⟩
          (exampleClientHello.RandomInit.val.length / 16) (exampleKey.val.take 16)
          exampleClientHello.RandomInit.val ∧
        s.bytes <+: s.array ∧
        exampleClientHello.RandomInit.val.length - 16 ≤ s.bytes.length ∧
        s.bytes.length ≤ exampleClientHello.RandomInit.val.length) ∧
      ((([] : List Byte) = [] ∨ ([] : List Byte).length % 16 ≠ 0) ∧
        AesDecrypt [] exampleKey.val = .error .Panic) :=
  ⟨rfl, rfl, by decide,
    (AesDecrypt_safe exampleClientHello.RandomInit.val exampleKey.val rfl).1 rfl (by decide),
    Or.inl rfl, (AesDecrypt_safe [] exampleKey.val rfl).2 (Or.inl rfl)⟩

theorem sum_specWords_set_one (l : List Byte) : ∀ (i : Nat) (v : Byte), i < l.length →
    (specWords (l.set i v)).sum + (if i % 2 = 0 then 256 else 1) * (l.getD i 0).val =
      (specWords l).sum + (if i % 2 = 0 then 256 else 1) * v.val := by
  induction l using specWords.induct with
  | case1 => intro i v h; simp at h
  | case2 a =>
    intro i v h
    have hi : i = 0 := by simpa using h
    subst hi
    simp [specWords]
    omega
  | case3 a b rest ih =>
    intro i v h
    match i, h with
    | 0, _ => simp [specWords]; omega
    | 1, _ => simp [specWords]; omega
    | i + 2, h =>
      have := ih i v (by simp only [List.length_cons] at h; omega)
      simp only [List.set_cons_succ, specWords, List.sum_cons, List.getD_cons_succ,
        Nat.add_mod_right] at this ⊢
      omega

/-- C19: for every byte buffer, every length `n <= len(buffer)` (a `uint16`)
and every position `i < n`, replacing the byte at position `i` by a different
value changes the value `CheckSum(buffer, n)` returns; in particular a buffer
that verified to 0 no longer verifies to 0. -/
theorem CheckSum_detects_byte_change (buffer : List Byte) (n i : Nat) (v : Byte)
    (hn : n ≤ buffer.length) (h16 : n < 65536) (hi : i < n) (hv : v ≠ buffer.getD i 0) :
    ∃ c c2, CheckSum buffer n = .ok c ∧ CheckSum (buffer.set i v) n = .ok c2 ∧ c ≠ c2 ∧
      (c = 0 → c2 ≠ 0) := by
  have h1 := CheckSum_eq buffer n hn h16
  have h2 := CheckSum_eq (buffer.set i v) n (by rw [List.length_set]; exact hn) h16
  have hset := sum_specWords_set_one (buffer.take n) i v (by rw [List.length_take]; omega)
  have htake : (buffer.set i v).take n = (buffer.take n).set i v := by
    rw [List.set_take]
  have hget : (buffer.take n).getD i 0 = buffer.getD i 0 := by
    rw [List.getD_eq_getElem?_getD, List.getD_eq_getElem?_getD, List.getElem?_take_of_lt hi]
  rw [hget] at hset
  rw [htake] at h2
  have hvne : v.val ≠ (buffer.getD i 0).val := fun e => hv (Fin.ext e)
  have hv1 := v.isLt
  have hv2 := (buffer.getD i 0).isLt
  generalize (specWords (buffer.take n)).sum = S at h1 hset
  generalize (specWords ((buffer.take n).set i v)).sum = S2 at h2 hset
  have hR : (if S = 0 then 0 else (S - 1) % 65535 + 1) < 65536 := by split <;> omega
  have hR2 : (if S2 = 0 then 0 else (S2 - 1) % 65535 + 1) < 65536 := by split <;> omega
  rw [xor_ffff _ hR] at h1
  rw [xor_ffff _ hR2] at h2
  have hne : 65535 - (if S = 0 then 0 else (S - 1) % 65535 + 1) ≠
      65535 - (if S2 = 0 then 0 else (S2 - 1) % 65535 + 1) := by
    by_cases hpar : i % 2 = 0
    · simp only [hpar, if_true] at hset
      split <;> split <;> omega
    · simp only [hpar, if_false] at hset
      split <;> split <;> omega
  exact ⟨_, _, h1, h2, hne, fun h0 h20 => hne (h0.trans h20.symm)⟩

theorem CheckSum_detects_byte_change_witness :
    8 ≤ ([0x01, 0x01, 0x00, 0x70, 0x01, 0x02, 0x8d, 0x8b] : List Byte).length ∧ 8 < 65536 ∧
      3 < 8 ∧ (0x71 : Byte) ≠ ([0x01, 0x01, 0x00, 0x70, 0x01, 0x02, 0x8d, 0x8b] : List Byte).getD 3 0 ∧
      ∃ c c2, CheckSum [0x01, 0x01, 0x00, 0x70, 0x01, 0x02, 0x8d, 0x8b] 8 = .ok c ∧
        CheckSum (([0x01, 0x01, 0x00, 0x70, 0x01, 0x02, 0x8d, 0x8b] : List Byte).set 3 0x71) 8 =
          .ok c2 ∧ c ≠ c2 ∧ (c = 0 → c2 ≠ 0) :=
  ⟨by decide, by decide, by decide, by decide,
    CheckSum_detects_byte_change _ 8 3 0x71 (by decide) (by decide) (by decide) (by decide)⟩

end simssl
